import Mathlib

/-!
Shallow embedding of the MarkBridge conversion core (src/src/App.vue).

JavaScript strings are modelled as `List Char` (`Str`).  Each definition
below mirrors one function of the source file; regular-expression line
matching is translated into explicit character scanning that reproduces
the (deterministic) behaviour of the concrete regexes used by the code.
Whitespace is modelled by the ASCII whitespace characters that JavaScript
`trim`/`\s` recognise; the inputs manipulated by the program (and all
inputs used in the theorems) only contain those.
-/

abbrev Str := List Char

def str (s : String) : Str := s.toList

/-- The ASCII part of JavaScript whitespace (`\s`, `trim`). -/
def isWS (c : Char) : Bool :=
  c = ' ' || c = '\t' || c = '\n' || c = '\r' || c = '\x0b' || c = '\x0c'

/-- `String.prototype.trimStart` (ASCII fragment). -/
def trimL (s : Str) : Str := s.dropWhile isWS

/-- `String.prototype.trimEnd` (ASCII fragment). -/
def trimR (s : Str) : Str := (trimL s.reverse).reverse

/-- `String.prototype.trim` (ASCII fragment). -/
def trim (s : Str) : Str := trimR (trimL s)

/-- `s.split(c)` for a single-character separator: always returns a
non-empty list of separator-free pieces. -/
def splitOn1 (sep : Char) : Str → List Str
  | [] => [[]]
  | x :: rest =>
    if x = sep then [] :: splitOn1 sep rest
    else
      match splitOn1 sep rest with
      | [] => [[x]]
      | s :: ss => (x :: s) :: ss

/-- Drop a single trailing carriage return, if present. -/
def dropCR1 (l : Str) : Str :=
  match l.getLast? with
  | some c => if c = '\r' then l.dropLast else l
  | none => l

def splitLinesGo : List Str → List Str
  | [] => []
  | [l] => [l]
  | l :: rest => dropCR1 l :: splitLinesGo rest

/-- `text.split(/\r?\n/)`: split on `'\n'`, then strip the `'\r'` that
belonged to a `"\r\n"` separator from every piece but the last. -/
def splitLines (s : Str) : List Str := splitLinesGo (splitOn1 '\n' s)

/-- `text.replace(/\r/g, '')`. -/
def removeCR (s : Str) : Str := s.filter (fun c => c ≠ '\r')

/-- Decimal rendering of a natural number, digit characters only
(JS template interpolation of a number). -/
def natStrGo : Nat → Nat → Str → Str
  | 0, _, acc => acc
  | fuel + 1, n, acc =>
    if n = 0 then acc else natStrGo fuel (n / 10) (Char.ofNat (48 + n % 10) :: acc)

def natStr (n : Nat) : Str := if n = 0 then ['0'] else natStrGo n n []

/-! ## Table parser / formatter -/

structure TableData where
  headers : List Str
  rows : List (List Str)
deriving DecidableEq

/-- Character loop of `splitTableRow`: `current` is the cell being
accumulated, `inQ` the quote-mode flag. -/
def splitTableRowGo : Str → Bool → Str → List Str
  | [], _, current => [trim current]
  | c :: rest, inQ, current =>
    if c = '\"' then splitTableRowGo rest (!inQ) current
    else if (c = ',' || c = '\t') && !inQ then
      trim current :: splitTableRowGo rest inQ []
    else splitTableRowGo rest inQ (current ++ [c])

/-- `splitTableRow(row)`: quote-aware cell split on commas and tabs,
dropping every `'"'` and trimming each cell. -/
def splitTableRow (row : Str) : List Str := splitTableRowGo row false []

/-- Right-pad a row with empty cells up to `cc` columns. -/
def padTo (cc : Nat) (r : List Str) : List Str :=
  r ++ List.replicate (cc - r.length) []

/-- `parseTable(text)`. -/
def parseTable (text : Str) : Option TableData :=
  match (((splitLines text).map trim).filter (fun r => r ≠ [])).map splitTableRow with
  | [] => none
  | r0 :: rs =>
    let cc := (r0 :: rs).foldl (fun m r => max m r.length) 0
    some ⟨padTo cc r0, rs.map (padTo cc)⟩

/-- `tableToMarkdown(table)`. -/
def tableToMarkdown (t : TableData) : Str :=
  let headerLine := str "| " ++ List.intercalate (str " | ") t.headers ++ str " |"
  let separator :=
    str "| " ++ List.intercalate (str " | ") (t.headers.map (fun _ => str "---")) ++ str " |"
  let bodyLines := t.rows.map (fun r => str "| " ++ List.intercalate (str " | ") r ++ str " |")
  List.intercalate ['\n'] (headerLine :: separator :: bodyLines)

/-- `value.replace(/"/g, '""')`. -/
def escQ (v : Str) : Str :=
  v.foldr (fun c acc => if c = '\"' then '\"' :: '\"' :: acc else c :: acc) []

/-- The `escapeCell` helper of `tableToCsv`. -/
def escapeCell (v : Str) : Str :=
  if v.contains ',' || v.contains '\"' || v.contains '\n' then
    '\"' :: (escQ v ++ ['\"'])
  else v

/-- `tableToCsv(table)`. -/
def tableToCsv (t : TableData) : Str :=
  List.intercalate ['\n']
    ((t.headers :: t.rows).map (fun r => List.intercalate [','] (r.map escapeCell)))

/-! ## Markdown table parser -/

/-- `/^\s*\|.+\|\s*$/` on a newline-free line: after trimming, the line
starts and ends with `'|'` and has at least one character in between. -/
def isPipedRow (l : Str) : Bool :=
  let t := trim l
  decide (3 ≤ t.length) && (t.head? == some '|') && (t.getLast? == some '|')

/-- After a `'|'`: `\s*:?-{3,}` (the rest of the separator pattern is
nullable, so three dashes decide the match). -/
def matchesSepAt (s : Str) : Bool :=
  let s1 := s.dropWhile isWS
  let s2 := match s1 with
    | ':' :: r => r
    | _ => s1
  match s2 with
  | '-' :: '-' :: '-' :: _ => true
  | _ => false

/-- `/\|\s*:?-{3,}:?\s*/.test(line)`: unanchored search. -/
def isSeparatorLine : Str → Bool
  | [] => false
  | '|' :: rest => matchesSepAt rest || isSeparatorLine rest
  | _ :: rest => isSeparatorLine rest

/-- `line.split('|').slice(1, -1).map(cell => cell.trim())`. -/
def rowCells (l : Str) : List Str :=
  (((splitOn1 '|' l).drop 1).dropLast).map trim

/-- Main loop of `parseMarkdownTable`: find the first piped row, require a
separator on the very next line, then take piped rows while they last. -/
def pmtFind : List Str → Option TableData
  | [] => none
  | [_] => none
  | l :: next :: rest =>
    if isPipedRow l then
      if isSeparatorLine next then
        let headers := rowCells l
        let rows := (rest.takeWhile isPipedRow).map rowCells
        if headers = [] then none else some ⟨headers, rows⟩
      else none
    else pmtFind (next :: rest)

/-- `parseMarkdownTable(markdown)`. -/
def parseMarkdownTable (markdown : Str) : Option TableData :=
  pmtFind (splitOn1 '\n' (removeCR markdown))

/-! ## Document block parser / formatter -/

inductive DocumentBlock where
  | heading : Nat → Str → DocumentBlock
  | paragraph : Option Str → Str → DocumentBlock
  | ulist : List Str → DocumentBlock
  | olist : List Str → DocumentBlock
deriving DecidableEq

/-- `/^(#{1,6})\s+(.*)$/`: a run of one to six `'#'` followed by
whitespace; the capture is the rest with its leading whitespace eaten by
the greedy `\s+`. -/
def headingMatch (t : Str) : Option (Nat × Str) :=
  let n := (t.takeWhile (fun c => c = '#')).length
  if 1 ≤ n ∧ n ≤ 6 then
    match t.drop n with
    | c :: rest => if isWS c then some (n, rest.dropWhile isWS) else none
    | [] => none
  else none

/-- `/^[-*•]\s+(.*)$/`. -/
def bulletMatchDoc (t : Str) : Option Str :=
  match t with
  | c :: d :: rest =>
    if (c = '-' || c = '*' || c = '•') && isWS d then some (rest.dropWhile isWS) else none
  | _ => none

/-- `/^[-*+]\s+(.*)$/` (the marker set used by the Markdown renderers). -/
def bulletMatchPlus (t : Str) : Option Str :=
  match t with
  | c :: d :: rest =>
    if (c = '-' || c = '*' || c = '+') && isWS d then some (rest.dropWhile isWS) else none
  | _ => none

/-- `/^(\d+)[\.)]\s+(.*)$/`; only the second capture is ever used. -/
def orderedMatch (t : Str) : Option Str :=
  let ds := t.takeWhile Char.isDigit
  if ds = [] then none
  else
    match t.drop ds.length with
    | p :: c :: rest =>
      if (p = '.' || p = ')') && isWS c then some (rest.dropWhile isWS) else none
    | _ => none

/-- `/^([^:：]{2,})[:：]\s*(.*)$/`: the label is everything before the
first (half- or full-width) colon, which must be at least two characters
in. -/
def colonMatch (t : Str) : Option (Str × Str) :=
  let pre := t.takeWhile (fun c => c ≠ ':' ∧ c ≠ '：')
  if 2 ≤ pre.length ∧ pre.length < t.length then
    some (pre, (t.drop (pre.length + 1)).dropWhile isWS)
  else none

/-- Scanner state of `createDocumentBlocks`: emitted blocks, the open
paragraph buffer, and the open list (`true` = unordered). -/
structure DBState where
  blocks : List DocumentBlock
  para : List Str
  list : Option (Bool × List Str)
deriving DecidableEq

def flushP (st : DBState) : DBState :=
  if st.para = [] then st
  else { st with blocks := st.blocks ++ [.paragraph none (List.intercalate [' '] st.para)],
                 para := [] }

def flushL (st : DBState) : DBState :=
  match st.list with
  | none => st
  | some (isUl, items) =>
    { st with blocks := st.blocks ++ [if isUl then .ulist items else .olist items],
              list := none }

def dbStep (st : DBState) (line : Str) : DBState :=
  let t := trim line
  if t = [] then flushL (flushP st)
  else
    match headingMatch t with
    | some (n, txt) =>
      let st1 := flushL (flushP st)
      { st1 with blocks := st1.blocks ++ [.heading n txt] }
    | none =>
      match bulletMatchDoc t with
      | some item =>
        let st1 := flushP st
        match st1.list with
        | some (true, items) => { st1 with list := some (true, items ++ [item]) }
        | _ =>
          let st2 := flushL st1
          { st2 with list := some (true, [item]) }
      | none =>
        match orderedMatch t with
        | some item =>
          let st1 := flushP st
          match st1.list with
          | some (false, items) => { st1 with list := some (false, items ++ [item]) }
          | _ =>
            let st2 := flushL st1
            { st2 with list := some (false, [item]) }
        | none =>
          match colonMatch t with
          | some (lab, txt) =>
            let st1 := flushL (flushP st)
            { st1 with blocks := st1.blocks ++ [.paragraph (some lab) txt] }
          | none => { st with para := st.para ++ [t] }

/-- `createDocumentBlocks(text)`. -/
def createDocumentBlocks (text : Str) : List DocumentBlock :=
  (flushL (flushP ((splitOn1 '\n' (removeCR text)).foldl dbStep ⟨[], [], none⟩))).blocks

/-- The line(s) a single block contributes to the Markdown rendering. -/
def blockLines : DocumentBlock → List Str
  | .heading n t => [List.replicate n '#' ++ ' ' :: t]
  | .paragraph none t => [t]
  | .paragraph (some lab) t => ['*' :: '*' :: lab ++ str ":** " ++ t]
  | .ulist items => items.map (fun i => '-' :: ' ' :: i)
  | .olist items => items.mapIdx (fun idx i => natStr (idx + 1) ++ '.' :: ' ' :: i)

/-- `.replace(/\n{3,}/g, '\n\n')`: every maximal run of three or more
newlines becomes exactly two. -/
def collapseGo : Nat → Str → Str
  | 0, s => s
  | fuel + 1, s =>
    match s with
    | '\n' :: '\n' :: '\n' :: rest =>
      '\n' :: '\n' :: collapseGo fuel (rest.dropWhile (fun c => c = '\n'))
    | c :: rest => c :: collapseGo fuel rest
    | [] => []

def collapseNewlines (s : Str) : Str := collapseGo s.length s

/-- `documentBlocksToMarkdown(blocks)`. -/
def documentBlocksToMarkdown (blocks : List DocumentBlock) : Str :=
  trim (collapseNewlines
    (List.intercalate ['\n'] ((blocks.map (fun b => blockLines b ++ [[]])).flatten)))

/-! ## Slide outline parser / Markdown-to-slides parser -/

structure SlideOutline where
  title : Str
  bullets : List Str
deriving DecidableEq

/-- `normalized.split(/\n{2,}/)`: split on maximal runs of two or more
newlines. -/
def splitNl2Go : Nat → Str → List Str
  | 0, s => [s]
  | fuel + 1, s =>
    match s with
    | '\n' :: '\n' :: rest => [] :: splitNl2Go fuel (rest.dropWhile (fun c => c = '\n'))
    | c :: rest =>
      match splitNl2Go fuel rest with
      | [] => [[c]]
      | seg :: segs => (c :: seg) :: segs
    | [] => [[]]

def splitNl2 (s : Str) : List Str := splitNl2Go s.length s

/-- `line.replace(/^[-*•]\s*/, '').replace(/^[0-9]+[\.)]\s*/, '')`. -/
def stripBullet (l : Str) : Str :=
  let l1 :=
    match l with
    | c :: rest => if c = '-' || c = '*' || c = '•' then rest.dropWhile isWS else l
    | [] => l
  let ds := l1.takeWhile Char.isDigit
  if ds = [] then l1
  else
    match l1.drop ds.length with
    | p :: rest => if p = '.' || p = ')' then rest.dropWhile isWS else l1
    | [] => l1

/-- `parseSlidesFromOutline(input)`. -/
def parseSlidesFromOutline (input : Str) : List SlideOutline :=
  let normalized := trim (removeCR input)
  if normalized = [] then []
  else
    let segments := ((splitNl2 normalized).map trim).filter (fun s => s ≠ [])
    segments.mapIdx (fun idx seg =>
      let ls := ((splitOn1 '\n' seg).map trim).filter (fun l => l ≠ [])
      let fallback := str "幻灯片 " ++ natStr (idx + 1)
      match ls with
      | [] => ⟨fallback, []⟩
      | t :: rest => ⟨if t = [] then fallback else t, rest.map stripBullet⟩)

/-- One line of the `markdownToSlides` loop: state is (pushed slides,
open slide). -/
def msStep (st : List SlideOutline × Option SlideOutline) (raw : Str) :
    List SlideOutline × Option SlideOutline :=
  let line := trim raw
  if line = [] then st
  else
    match headingMatch line with
    | some (_, t) =>
      match st.2 with
      | some cur => (st.1 ++ [cur], some ⟨t, []⟩)
      | none => (st.1, some ⟨t, []⟩)
    | none =>
      match bulletMatchPlus line with
      | some item =>
        match st.2 with
        | some cur => (st.1, some ⟨cur.title, cur.bullets ++ [item]⟩)
        | none => (st.1, some ⟨str "概览", [item]⟩)
      | none =>
        match orderedMatch line with
        | some item =>
          match st.2 with
          | some cur => (st.1, some ⟨cur.title, cur.bullets ++ [item]⟩)
          | none => (st.1, some ⟨str "概览", [item]⟩)
        | none =>
          match st.2 with
          | some cur => (st.1, some ⟨cur.title, cur.bullets ++ [line]⟩)
          | none => (st.1, some ⟨line, []⟩)

/-- `markdownToSlides(markdown)`. -/
def markdownToSlides (markdown : Str) : List SlideOutline :=
  let st := (splitOn1 '\n' (removeCR markdown)).foldl msStep ([], none)
  st.1 ++ st.2.toList

/-! ## Markdown-to-HTML renderer -/

/-- `escapeHtml(text)`: `&`, `<`, `>` (in this order, which a single pass
reproduces). -/
def escapeHtml (s : Str) : Str :=
  (s.map (fun c =>
    if c = '&' then str "&amp;"
    else if c = '<' then str "&lt;"
    else if c = '>' then str "&gt;"
    else [c])).flatten

/-- Fuelled scanner for the delimiter-wrap replacements of
`formatInlineMarkdown` (`**…**`, `*…*`, `` `…` ``): at each position, if
the opening delimiter is followed by a non-empty run free of `bad` and
then the closing delimiter, the run is wrapped in `pre`/`post` and the
scan resumes after the match; otherwise one character is copied.  Every
step consumes at least one input character, so `fuel = s.length` makes
this total on the whole input. -/
def wrapGo (od : Str) (bad : Char) (pre post : Str) : Nat → Str → Str
  | 0, s => s
  | _ + 1, [] => []
  | fuel + 1, c :: rest =>
    if od.isPrefixOf (c :: rest) then
      let after := (c :: rest).drop od.length
      let run := after.takeWhile (fun x => x ≠ bad)
      let r2 := after.drop run.length
      if run ≠ [] ∧ od.isPrefixOf r2 then
        pre ++ run ++ post ++ wrapGo od bad pre post fuel (r2.drop od.length)
      else c :: wrapGo od bad pre post fuel rest
    else c :: wrapGo od bad pre post fuel rest

/-- `/\*\*([^*]+)\*\*/g` → `<strong>$1</strong>`. -/
def strongRepl (s : Str) : Str :=
  wrapGo (str "**") '*' (str "<strong>") (str "</strong>") s.length s

/-- `/\*([^*]+)\*/g` → `<em>$1</em>`. -/
def emRepl (s : Str) : Str :=
  wrapGo ['*'] '*' (str "<em>") (str "</em>") s.length s

/-- Backtick code spans → `<code>$1</code>`. -/
def codeRepl (s : Str) : Str :=
  wrapGo ['\x60'] '\x60' (str "<code>") (str "</code>") s.length s

/-- `/\[([^\]]+)\]\(([^)]+)\)/g` → the anchor template, fuelled like
`wrapGo`. -/
def linkGo : Nat → Str → Str
  | 0, s => s
  | _ + 1, [] => []
  | fuel + 1, '[' :: rest =>
    let txt := rest.takeWhile (fun c => c ≠ ']')
    match txt, rest.drop txt.length with
    | _ :: _, ']' :: '(' :: r3 =>
      let url := r3.takeWhile (fun c => c ≠ ')')
      match url, r3.drop url.length with
      | _ :: _, ')' :: r5 =>
        str "<a href=\"" ++ url ++ str "\" target=\"_blank\" rel=\"noopener\">" ++
          txt ++ str "</a>" ++ linkGo fuel r5
      | _, _ => '[' :: linkGo fuel rest
    | _, _ => '[' :: linkGo fuel rest
  | fuel + 1, c :: rest => c :: linkGo fuel rest

def linkRepl (s : Str) : Str := linkGo s.length s

/-- `formatInlineMarkdown(text)`: escape, then the four replacements in
source order. -/
def formatInlineMarkdown (text : Str) : Str :=
  linkRepl (codeRepl (emRepl (strongRepl (escapeHtml text))))

/-- Renderer state of `markdownToHtml`. -/
structure MHState where
  html : List Str
  inUl : Bool
  inOl : Bool
  inCode : Bool
  code : List Str

def mhCloseLists (st : MHState) : MHState :=
  let st1 := if st.inUl then { st with html := st.html ++ [str "</ul>"], inUl := false } else st
  if st1.inOl then { st1 with html := st1.html ++ [str "</ol>"], inOl := false } else st1

def mhFlushCode (st : MHState) : MHState :=
  if st.inCode then
    { st with
      html := st.html ++
        [str "<pre><code>" ++ escapeHtml (List.intercalate ['\n'] st.code) ++ str "</code></pre>"],
      code := [], inCode := false }
  else st

def mhStep (st : MHState) (raw : Str) : MHState :=
  let line := trimR raw
  if line.take 3 = str "\x60\x60\x60" then
    if st.inCode then mhFlushCode st
    else
      let st1 := mhCloseLists st
      { st1 with inCode := true }
  else if st.inCode then { st with code := st.code ++ [raw] }
  else if trim line = [] then
    let st1 := mhCloseLists st
    { st1 with html := st1.html ++ [str "<div class=\"md-gap\"></div>"] }
  else
    match headingMatch line with
    | some (n, t) =>
      let st1 := mhCloseLists st
      { st1 with html := st1.html ++
          [str "<h" ++ natStr n ++ str ">" ++ formatInlineMarkdown t ++
            str "</h" ++ natStr n ++ str ">"] }
    | none =>
      match bulletMatchPlus line with
      | some item =>
        let li := str "<li>" ++ formatInlineMarkdown item ++ str "</li>"
        if st.inUl then { st with html := st.html ++ [li] }
        else
          let st1 := mhCloseLists st
          { st1 with inUl := true, html := st1.html ++ [str "<ul>", li] }
      | none =>
        match orderedMatch line with
        | some item =>
          let li := str "<li>" ++ formatInlineMarkdown item ++ str "</li>"
          if st.inOl then { st with html := st.html ++ [li] }
          else
            let st1 := mhCloseLists st
            { st1 with inOl := true, html := st1.html ++ [str "<ol>", li] }
        | none =>
          let st1 := mhCloseLists st
          { st1 with html := st1.html ++
              [str "<p>" ++ formatInlineMarkdown line ++ str "</p>"] }

/-- `markdownToHtml(markdown)`. -/
def markdownToHtml (markdown : Str) : Str :=
  let st := (splitOn1 '\n' (removeCR markdown)).foldl mhStep ⟨[], false, false, false, []⟩
  (mhFlushCode (mhCloseLists st)).html.flatten

/-! ## Kind detector -/

inductive DocumentKind where
  | word
  | excel
  | powerpoint
  | text
  | markdown
deriving DecidableEq

def mdExts : List Str := [str "md", str "markdown"]

def wordExts : List Str := [str "docx", str "doc", str "rtf", str "txt"]

def excelExts : List Str := [str "xlsx", str "xls", str "csv", str "tsv"]

def pptExts : List Str := [str "pptx", str "ppt", str "md", str "txt"]

def textExts : List Str := [str "txt", str "md", str "log"]

/-- Inside `/\|\s.+\|/`: after `"|" + one whitespace`, at least one
non-newline character and then another `'|'` with no newline in
between. -/
def hasCharThenPipe (s : Str) : Bool :=
  ((s.takeWhile (fun c => c ≠ '\n')).drop 1).contains '|'

/-- `/\|\s.+\|/.test(content)`: unanchored search. -/
def pipeRowTest : Str → Bool
  | '|' :: c :: rest => (isWS c && hasCharThenPipe (c :: rest)) || pipeRowTest (c :: rest)
  | _ :: rest => pipeRowTest rest
  | [] => false

/-- `/\n{2,}/.test(content)`. -/
def hasDoubleNl : Str → Bool
  | '\n' :: '\n' :: _ => true
  | _ :: rest => hasDoubleNl rest
  | [] => false

/-- `/^\s*#/.test(content) || /\|\s.+\|/.test(content)`. -/
def contentLooksMarkdown (content : Str) : Bool :=
  ((content.dropWhile isWS).head? == some '#') || pipeRowTest content

/-- `/,\s*|\t/.test(content) && content.split('\n').some(line => /,|\t/.test(line))`. -/
def contentLooksTable (content : Str) : Bool :=
  (content.contains ',' || content.contains '\t') &&
    (splitOn1 '\n' content).any (fun l => l.contains ',' || l.contains '\t')

/-- `/^[-*•]\s+/m.test(content) && /\n{2,}/.test(content)`. -/
def contentLooksSlides (content : Str) : Bool :=
  ((splitOn1 '\n' content).any (fun l =>
    match l with
    | a :: b :: _ => (a = '-' || a = '*' || a = '•') && isWS b
    | _ => false)) && hasDoubleNl content

/-- `detectKind(fileName, content)`. -/
def detectKind (fileName content : Str) : DocumentKind :=
  let ext := ((splitOn1 '.' fileName).getLast?.getD []).map Char.toLower
  if ext ≠ [] ∧ ext ∈ mdExts then .markdown
  else if ext ≠ [] ∧ ext ∈ wordExts then .word
  else if ext ≠ [] ∧ ext ∈ excelExts then .excel
  else if ext ≠ [] ∧ ext ∈ pptExts then .powerpoint
  else if ext ≠ [] ∧ ext ∈ textExts then .text
  else if contentLooksMarkdown content then .markdown
  else if contentLooksTable content then .excel
  else if contentLooksSlides content then .powerpoint
  else .text

/-! ## Derived predicates used by the claims -/

/-- The C3 invariant: every body row has exactly as many cells as the
header row. -/
def rowsMatchHeaders (t : TableData) : Prop :=
  ∀ r ∈ t.rows, r.length = t.headers.length

instance (t : TableData) : Decidable (rowsMatchHeaders t) := by
  unfold rowsMatchHeaders; infer_instance

/-- The heading/list subsequence of a block list (C6 compares these). -/
def hlBlocks (blocks : List DocumentBlock) : List DocumentBlock :=
  blocks.filter (fun b =>
    match b with
    | .heading _ _ => true
    | .ulist _ => true
    | .olist _ => true
    | .paragraph _ _ => false)

/-! # Theorems -/

/-- C1 (counterexample): the spec example `detectKind("plain.txt", "just
words") = text` fails: the `txt` extension is registered on the Word
channel, which is checked first, so the code returns `word`. -/
theorem detectKind_plain_txt_is_not_text :
    detectKind (str "plain.txt") (str "just words") ≠ DocumentKind.text := by
  decide

/-- C1 (amended): `detectKind("report.csv", "a,b\n1,2")` is the
excel/table kind and `detectKind("note.md", "# hi")` is markdown, as the
spec states; `detectKind("plain.txt", "just words")`, however, returns
the Word kind, because the Word channel also registers the `txt`
extension and extension matching precedes the content heuristics. -/
theorem detectKind_spec_examples :
    detectKind (str "report.csv") (str "a,b\n1,2") = DocumentKind.excel ∧
    detectKind (str "note.md") (str "# hi") = DocumentKind.markdown ∧
    detectKind (str "plain.txt") (str "just words") = DocumentKind.word := by
  refine ⟨by decide, by decide, by decide⟩

/-- C7: the core transformations are total Lean functions of the input
string (the embedding has no partial definitions, so they return a value
on every input), and on the empty string each parser yields its
designated empty signal: `none` for both table parsers and `[]` for the
block and slide parsers.  `markdownToHtml` and `detectKind` also return
plain values on the empty string (a single gap marker and the plain-text
kind). -/
theorem parsers_empty_input_signals :
    parseTable (str "") = none ∧
    parseMarkdownTable (str "") = none ∧
    createDocumentBlocks (str "") = [] ∧
    parseSlidesFromOutline (str "") = [] ∧
    markdownToSlides (str "") = [] ∧
    markdownToHtml (str "") = str "<div class=\"md-gap\"></div>" ∧
    detectKind (str "") (str "") = DocumentKind.text := by
  refine ⟨by decide, by decide, by decide, by decide, by decide, by decide, by decide⟩

/-! ## Basic facts about `trim` -/

theorem trimR_eq (s : Str) : trimR s = List.rdropWhile isWS s := rfl

theorem trim_eq (s : Str) : trim s = List.rdropWhile isWS (List.dropWhile isWS s) := rfl

theorem trim_sublist (s : Str) : (trim s).Sublist s := by
  rw [trim_eq]
  exact List.Sublist.trans (List.IsPrefix.sublist (List.rdropWhile_prefix _ _))
    (List.dropWhile_sublist _)

theorem mem_of_mem_trim {c : Char} {s : Str} (h : c ∈ trim s) : c ∈ s :=
  (trim_sublist s).mem h

theorem dropWhile_trim (s : Str) :
    List.dropWhile isWS (trim s) = trim s := by
  rw [trim_eq]
  rw [List.dropWhile_eq_self_iff]
  intro hl
  have hpre := List.rdropWhile_prefix isWS (List.dropWhile isWS s)
  have hget : (List.rdropWhile isWS (List.dropWhile isWS s)).get ⟨0, hl⟩ =
      (List.dropWhile isWS s).get ⟨0, lt_of_lt_of_le hl (List.IsPrefix.length_le hpre)⟩ := by
    exact List.IsPrefix.getElem hpre hl
  rw [hget]
  exact List.dropWhile_get_zero_not isWS s (lt_of_lt_of_le hl (List.IsPrefix.length_le hpre))

theorem trim_trim (s : Str) : trim (trim s) = trim s := by
  have h1 : trim (trim s) = List.rdropWhile isWS (List.dropWhile isWS (trim s)) := rfl
  rw [h1, dropWhile_trim, trim_eq, List.rdropWhile_idempotent]

theorem trim_eq_self_of_ends (s : Str)
    (h1 : ∀ hl : 0 < s.length, isWS (s.get ⟨0, hl⟩) = false)
    (h2 : ∀ hl : s ≠ [], isWS (s.getLast hl) = false) :
    trim s = s := by
  rw [trim_eq]
  rw [List.dropWhile_eq_self_iff.mpr (by intro hl; rw [h1 hl]; simp)]
  rw [List.rdropWhile_eq_self_iff.mpr (by intro hl; rw [h2 hl]; simp)]

/-! ## `parseTable` structure lemmas -/

/-- The non-blank trimmed lines of the input, split into (unnormalized)
cell rows. -/
def rawRows (text : Str) : List (List Str) :=
  (((splitLines text).map trim).filter (fun r => r ≠ [])).map splitTableRow

/-- The column count `parseTable` computes. -/
def maxLen (rs : List (List Str)) : Nat := rs.foldl (fun m r => max m r.length) 0

theorem parseTable_def (text : Str) :
    parseTable text =
      match rawRows text with
      | [] => none
      | r0 :: rs => some ⟨padTo (maxLen (r0 :: rs)) r0, rs.map (padTo (maxLen (r0 :: rs)))⟩ := rfl

theorem le_foldl_max (rs : List (List Str)) (m : Nat) :
    m ≤ rs.foldl (fun a r => max a r.length) m := by
  induction rs generalizing m with
  | nil => simp
  | cons r rest ih => exact le_trans (Nat.le_max_left m r.length) (ih (max m r.length))

theorem mem_le_foldl_max (rs : List (List Str)) (m : Nat) (r : List Str) (hr : r ∈ rs) :
    r.length ≤ rs.foldl (fun a x => max a x.length) m := by
  induction rs generalizing m with
  | nil => cases hr
  | cons a rest ih =>
    rcases List.mem_cons.mp hr with h | h
    · subst h
      exact le_trans (Nat.le_max_right m r.length) (le_foldl_max rest (max m r.length))
    · exact ih (max m a.length) h

theorem padTo_length (cc : Nat) (r : List Str) (h : r.length ≤ cc) :
    (padTo cc r).length = cc := by
  simp only [padTo, List.length_append, List.length_replicate]
  omega

/-- Helper for C3: the table `parseTable` builds always has uniform row
width equal to the header width. -/
theorem parseTable_uniform {text : Str} {t : TableData} (h : parseTable text = some t) :
    rowsMatchHeaders t := by
  rw [parseTable_def] at h
  rcases hr : rawRows text with _ | ⟨r0, rs⟩
  · rw [hr] at h; cases h
  · rw [hr] at h
    cases h
    intro r hmem
    rcases List.mem_map.mp hmem with ⟨x, hx, hpad⟩
    have hx0 : x.length ≤ maxLen (r0 :: rs) :=
      mem_le_foldl_max (r0 :: rs) 0 x (List.mem_cons_of_mem r0 hx)
    have hr0 : r0.length ≤ maxLen (r0 :: rs) :=
      mem_le_foldl_max (r0 :: rs) 0 r0 (List.mem_cons_self r0 rs)
    rw [← hpad]
    simp only [padTo_length _ _ hx0, padTo_length _ _ hr0]

/-- Cells produced by the `splitTableRow` loop never contain a double
quote (quote characters only toggle the mode) and are trim-fixed, as long
as the accumulator contains no quote. -/
theorem splitTableRowGo_cells (s : Str) :
    ∀ (inQ : Bool) (cur : Str), '\"' ∉ cur →
      ∀ cell ∈ splitTableRowGo s inQ cur, '\"' ∉ cell ∧ trim cell = cell := by
  induction s with
  | nil =>
    intro inQ cur hcur cell hcell
    simp only [splitTableRowGo, List.mem_singleton] at hcell
    subst hcell
    exact ⟨fun hmem => hcur (mem_of_mem_trim hmem), trim_trim cur⟩
  | cons c rest ih =>
    intro inQ cur hcur cell hcell
    by_cases hq : c = '\"'
    · rw [splitTableRowGo, if_pos hq] at hcell
      exact ih (!inQ) cur hcur cell hcell
    · rw [splitTableRowGo, if_neg hq] at hcell
      by_cases hsep : ((c = ',' || c = '\t') && !inQ) = true
      · rw [if_pos hsep] at hcell
        rcases List.mem_cons.mp hcell with h | h
        · subst h
          exact ⟨fun hmem => hcur (mem_of_mem_trim hmem), trim_trim cur⟩
        · exact ih inQ [] (by simp) cell h
      · rw [if_neg hsep] at hcell
        refine ih inQ (cur ++ [c]) ?_ cell hcell
        intro hmem
        rcases List.mem_append.mp hmem with h | h
        · exact hcur h
        · exact hq (List.mem_singleton.mp h).symm

/-- Helper for C10: every header or body cell of a `parseTable` result is
quote-free and trim-fixed. -/
theorem parseTable_cells {text : Str} {t : TableData} (h : parseTable text = some t) :
    ∀ cell, (cell ∈ t.headers ∨ ∃ r ∈ t.rows, cell ∈ r) →
      '\"' ∉ cell ∧ trim cell = cell := by
  rw [parseTable_def] at h
  rcases hr : rawRows text with _ | ⟨r0, rs⟩
  · rw [hr] at h; cases h
  · rw [hr] at h
    cases h
    have hraw : ∀ x ∈ r0 :: rs, ∀ cell ∈ x, '\"' ∉ cell ∧ trim cell = cell := by
      intro x hx cell hcell
      rw [← hr] at hx
      rcases List.mem_map.mp hx with ⟨line, _, hline⟩
      rw [← hline] at hcell
      exact splitTableRowGo_cells line false [] (by simp) cell hcell
    have hpad : ∀ x ∈ r0 :: rs, ∀ cell ∈ padTo (maxLen (r0 :: rs)) x,
        '\"' ∉ cell ∧ trim cell = cell := by
      intro x hx cell hcell
      rcases List.mem_append.mp hcell with hmem | hmem
      · exact hraw x hx cell hmem
      · rw [List.eq_of_mem_replicate hmem]
        exact ⟨by simp, rfl⟩
    intro cell hcell
    rcases hcell with hmem | ⟨r, hrow, hmem⟩
    · exact hpad r0 (List.mem_cons_self r0 rs) cell hmem
    · rcases List.mem_map.mp hrow with ⟨x, hx, hpadx⟩
      rw [← hpadx] at hmem
      exact hpad x (List.mem_cons_of_mem r0 hx) cell hmem

/-- C3 (counterexample): `parseMarkdownTable` performs no width
normalization, so a Markdown table with a short body row yields a
`TableData` violating `rows[i].length == headers.length`. -/
theorem parseMarkdownTable_width_counterexample :
    parseMarkdownTable (str "|a|b|\n|---|---|\n|x|") =
      some ⟨[str "a", str "b"], [[str "x"]]⟩ ∧
    ¬ rowsMatchHeaders ⟨[str "a", str "b"], [[str "x"]]⟩ := by
  exact ⟨by decide, by decide⟩

/-- C3 (amended): every `TableData` returned by `parseTable` satisfies
`rows[i].length == headers.length` (short rows are right-padded with
empty cells); `parseMarkdownTable`, by contrast, copies body rows without
normalizing their width and can violate the invariant. -/
theorem parseTable_rows_match_headers (text : Str) (t : TableData)
    (h : parseTable text = some t) : rowsMatchHeaders t :=
  parseTable_uniform h

/-- Witness for C3 at a concrete input with a short second row. -/
theorem parseTable_rows_match_headers_witness :
    parseTable (str "a,b\n1") = some ⟨[str "a", str "b"], [[str "1", str ""]]⟩ ∧
    rowsMatchHeaders ⟨[str "a", str "b"], [[str "1", str ""]]⟩ :=
  ⟨by decide, parseTable_rows_match_headers (str "a,b\n1") _ (by decide)⟩

/-- C10: every cell (header or body) of a non-null `parseTable` result
contains no double-quote character and is trim-fixed (no leading or
trailing whitespace): `splitTableRow` drops every `'"'` and trims each
cell, and padding only adds empty cells. -/
theorem parseTable_cells_clean (text : Str) (t : TableData)
    (h : parseTable text = some t) :
    ∀ cell, (cell ∈ t.headers ∨ ∃ r ∈ t.rows, cell ∈ r) →
      '\"' ∉ cell ∧ trim cell = cell :=
  parseTable_cells h

/-- Witness for C10 at an input with quoted, padded cells. -/
theorem parseTable_cells_clean_witness :
    parseTable (str "\" a \",b\nc") = some ⟨[str "a", str "b"], [[str "c", str ""]]⟩ ∧
    ('\"' ∉ str "a" ∧ trim (str "a") = str "a") :=
  ⟨by decide,
    parseTable_cells_clean (str "\" a \",b\nc") ⟨[str "a", str "b"], [[str "c", str ""]]⟩
      (by decide) (str "a") (Or.inl (by decide))⟩

/-! ## Trim-fixedness and the line matchers -/

theorem trimL_eq_self_iff (s : Str) :
    trimL s = s ↔ ∀ c, s.head? = some c → isWS c = false := by
  cases s with
  | nil => simp [trimL]
  | cons a rest =>
    simp only [trimL, List.dropWhile_cons, List.head?_cons]
    constructor
    · intro h c hc
      cases hc
      by_contra hws
      rw [if_pos (by revert hws; cases hb : isWS a <;> simp)] at h
      have := List.Sublist.length_le (List.dropWhile_sublist (l := rest) isWS)
      rw [h] at this
      simp at this
    · intro h
      rw [if_neg (by rw [h a rfl]; simp)]

theorem trimR_eq_self_iff (s : Str) :
    trimR s = s ↔ ∀ c, s.getLast? = some c → isWS c = false := by
  rw [trimR_eq, List.rdropWhile_eq_self_iff]
  constructor
  · intro h c hc
    rcases hne : s.getLast? with _ | d
    · rw [hne] at hc; cases hc
    · have hsne : s ≠ [] := by
        intro he; subst he; simp at hne
      rw [List.getLast?_eq_getLast s hsne] at hc
      cases hc
      have := h hsne
      revert this
      cases isWS (s.getLast hsne) <;> simp
  · intro h hl
    have := h (s.getLast hl) (List.getLast?_eq_getLast s hl)
    rw [this]
    simp

theorem trim_fixed_split {t : Str} (ht : trim t = t) : trimL t = t ∧ trimR t = t := by
  have h1 : (trim t).Sublist (trimL t) := by
    rw [trim_eq]
    exact List.IsPrefix.sublist (List.rdropWhile_prefix _ _)
  have h2 : (trimL t).Sublist t := List.dropWhile_sublist _
  rw [ht] at h1
  have hL : trimL t = t := List.Sublist.antisymm h2 (by exact h1)
  refine ⟨hL, ?_⟩
  have : trim t = trimR t := by rw [trim, hL]
  rw [← this, ht]

theorem trim_fixed_of_split {t : Str} (h1 : trimL t = t) (h2 : trimR t = t) : trim t = t := by
  rw [trim, h1, h2]

/-- Dropping leading whitespace from a non-empty suffix of a trim-fixed
non-blank line gives a non-empty, trim-fixed string. -/
theorem dropWS_suffix_good {t X : Str} (ht : trim t = t) (hX : X <:+ t) (hXne : X ≠ []) :
    X.dropWhile isWS ≠ [] ∧ trim (X.dropWhile isWS) = X.dropWhile isWS := by
  have hlast : ∀ c, X.getLast? = some c → isWS c = false := by
    intro c hc
    rcases hX with ⟨p, hp⟩
    have := (trim_fixed_split ht).2
    rw [trimR_eq_self_iff] at this
    refine this c ?_
    rw [← hp, List.getLast?_append_of_ne_nil p hXne, hc]
  have hYne : X.dropWhile isWS ≠ [] := by
    intro hnil
    rw [List.dropWhile_eq_nil_iff] at hnil
    have hc := List.getLast?_eq_getLast X hXne
    have hmem := List.getLast_mem hXne
    have := hlast (X.getLast hXne) hc
    rw [hnil _ hmem] at this
    cases this
  refine ⟨hYne, trim_fixed_of_split ?_ ?_⟩
  · exact List.dropWhile_idempotent isWS X
  · rw [trimR_eq_self_iff]
    intro c hc
    refine hlast c ?_
    rcases List.dropWhile_suffix (l := X) isWS with ⟨p, hp⟩
    rw [← hp, List.getLast?_append_of_ne_nil p hYne, hc]

/-- On a trim-fixed line, a heading match yields a non-empty, trim-fixed
title text and a level between 1 and 6. -/
theorem headingMatch_good {t : Str} {n : Nat} {txt : Str} (ht : trim t = t)
    (h : headingMatch t = some (n, txt)) :
    txt ≠ [] ∧ trim txt = txt ∧ 1 ≤ n ∧ n ≤ 6 := by
  simp only [headingMatch] at h
  split at h
  · rename_i hcond
    rcases hd : t.drop (t.takeWhile (fun c => c = '#')).length with _ | ⟨c, rest⟩
    · rw [hd] at h; cases h
    · rw [hd] at h
      replace h : (if isWS c = true then
          some ((List.takeWhile (fun c => c = '#') t).length, List.dropWhile isWS rest)
        else none) = some (n, txt) := h
      by_cases hws : isWS c = true
      · rw [if_pos hws] at h
        cases h
        have hsuf : (c :: rest) <:+ t := by rw [← hd]; exact List.drop_suffix _ t
        have hdw : (c :: rest).dropWhile isWS = rest.dropWhile isWS := by
          rw [List.dropWhile_cons, if_pos hws]
        have := dropWS_suffix_good ht hsuf (by simp)
        rw [hdw] at this
        exact ⟨this.1, this.2, hcond.1, hcond.2⟩
      · rw [if_neg hws] at h
        cases h
  · cases h

/-- On a trim-fixed line, a bullet match (either marker set) yields a
non-empty, trim-fixed item. -/
theorem bulletMatchDoc_good {t : Str} {item : Str} (ht : trim t = t)
    (h : bulletMatchDoc t = some item) : item ≠ [] ∧ trim item = item := by
  unfold bulletMatchDoc at h
  split at h
  · rename_i c d rest
    split at h
    · rename_i hcond
      cases h
      have hsuf : (d :: rest) <:+ (c :: d :: rest) := ⟨[c], rfl⟩
      have hdw : (d :: rest).dropWhile isWS = rest.dropWhile isWS := by
        rw [List.dropWhile_cons, if_pos (by exact (Bool.and_eq_true _ _).mp hcond |>.2)]
      have := dropWS_suffix_good ht hsuf (by simp)
      rw [hdw] at this
      exact ⟨this.1, this.2⟩
    · cases h
  · cases h

theorem bulletMatchPlus_good {t : Str} {item : Str} (ht : trim t = t)
    (h : bulletMatchPlus t = some item) : item ≠ [] ∧ trim item = item := by
  unfold bulletMatchPlus at h
  split at h
  · rename_i c d rest
    split at h
    · rename_i hcond
      cases h
      have hsuf : (d :: rest) <:+ (c :: d :: rest) := ⟨[c], rfl⟩
      have hdw : (d :: rest).dropWhile isWS = rest.dropWhile isWS := by
        rw [List.dropWhile_cons, if_pos (by exact (Bool.and_eq_true _ _).mp hcond |>.2)]
      have := dropWS_suffix_good ht hsuf (by simp)
      rw [hdw] at this
      exact ⟨this.1, this.2⟩
    · cases h
  · cases h

theorem orderedMatch_good {t : Str} {item : Str} (ht : trim t = t)
    (h : orderedMatch t = some item) : item ≠ [] ∧ trim item = item := by
  simp only [orderedMatch] at h
  split at h
  · cases h
  · rcases hd : t.drop (t.takeWhile Char.isDigit).length with _ | ⟨p, rest0⟩
    · rw [hd] at h; cases h
    · rcases rest0 with _ | ⟨c, rest⟩
      · rw [hd] at h; cases h
      · rw [hd] at h
        replace h : (if ((p = '.' || p = ')') && isWS c) = true then
            some (List.dropWhile isWS rest)
          else none) = some item := h
        by_cases hcond : ((p = '.' || p = ')') && isWS c) = true
        · rw [if_pos hcond] at h
          cases h
          have hsuf : (c :: rest) <:+ t := by
            have h1 : (c :: rest) <:+ (p :: c :: rest) := ⟨[p], rfl⟩
            have h2 : (p :: c :: rest) <:+ t := by rw [← hd]; exact List.drop_suffix _ t
            exact List.IsSuffix.trans h1 h2
          have hdw : (c :: rest).dropWhile isWS = rest.dropWhile isWS := by
            rw [List.dropWhile_cons, if_pos (by exact (Bool.and_eq_true _ _).mp hcond |>.2)]
          have := dropWS_suffix_good ht hsuf (by simp)
          rw [hdw] at this
          exact ⟨this.1, this.2⟩
        · rw [if_neg hcond] at h
          cases h

/-! ## Slide title invariants -/

theorem slideFallback_ne_nil (i : Nat) : str "幻灯片 " ++ natStr (i + 1) ≠ [] := by
  intro h
  rw [List.append_eq_nil] at h
  have : str "幻灯片 " ≠ [] := by decide
  exact this h.1

/-- Helper for C8: every slide from `parseSlidesFromOutline` has a
non-empty title (the first non-blank line of the segment, or the
generated fallback). -/
theorem parseSlides_titles (input : Str) :
    ∀ s ∈ parseSlidesFromOutline input, s.title ≠ [] := by
  simp only [parseSlidesFromOutline]
  split
  · intro s hs
    simp at hs
  · intro s hs
    rw [List.mem_iff_getElem] at hs
    obtain ⟨i, hi, hval⟩ := hs
    rw [List.getElem_mapIdx] at hval
    revert hval
    split
    · intro hval
      rw [← hval]
      exact slideFallback_ne_nil i
    · rename_i t rest heq
      intro hval
      rw [← hval]
      by_cases hte : t = []
      · rw [if_pos hte]
        exact slideFallback_ne_nil i
      · rw [if_neg hte]
        exact hte

/-- `msStep` preserves "all titles are non-empty". -/
theorem msStep_titles (st : List SlideOutline × Option SlideOutline) (raw : Str)
    (h1 : ∀ s ∈ st.1, s.title ≠ []) (h2 : ∀ s, st.2 = some s → s.title ≠ []) :
    (∀ s ∈ (msStep st raw).1, s.title ≠ []) ∧
    (∀ s, (msStep st raw).2 = some s → s.title ≠ []) := by
  obtain ⟨acc, cur⟩ := st
  by_cases hb : trim raw = []
  · simp only [msStep, if_pos hb]
    exact ⟨h1, h2⟩
  · have htt : trim (trim raw) = trim raw := trim_trim raw
    rcases hh : headingMatch (trim raw) with _ | ⟨n, t⟩
    · rcases hbp : bulletMatchPlus (trim raw) with _ | item
      · rcases ho : orderedMatch (trim raw) with _ | item
        · rcases hc : cur with _ | c
          · simp only [msStep, if_neg hb, hh, hbp, ho]
            refine ⟨h1, ?_⟩
            intro s hs
            cases hs
            exact hb
          · simp only [msStep, if_neg hb, hh, hbp, ho]
            refine ⟨h1, ?_⟩
            intro s hs
            cases hs
            exact h2 c hc
        · rcases hc : cur with _ | c
          · simp only [msStep, if_neg hb, hh, hbp, ho]
            refine ⟨h1, ?_⟩
            intro s hs
            cases hs
            exact (by decide : str "概览" ≠ [])
          · simp only [msStep, if_neg hb, hh, hbp, ho]
            refine ⟨h1, ?_⟩
            intro s hs
            cases hs
            exact h2 c hc
      · rcases hc : cur with _ | c
        · simp only [msStep, if_neg hb, hh, hbp]
          refine ⟨h1, ?_⟩
          intro s hs
          cases hs
          exact (by decide : str "概览" ≠ [])
        · simp only [msStep, if_neg hb, hh, hbp]
          refine ⟨h1, ?_⟩
          intro s hs
          cases hs
          exact h2 c hc
    · have ht := headingMatch_good htt hh
      rcases hc : cur with _ | c
      · simp only [msStep, if_neg hb, hh]
        refine ⟨h1, ?_⟩
        intro s hs
        cases hs
        exact ht.1
      · simp only [msStep, if_neg hb, hh]
        constructor
        · intro s hs
          rcases List.mem_append.mp hs with hm | hm
          · exact h1 s hm
          · rw [List.mem_singleton.mp hm]
            exact h2 c hc
        · intro s hs
          cases hs
          exact ht.1

/-- Folding `msStep` preserves "all titles are non-empty". -/
theorem msFold_titles (lines : List Str) :
    ∀ st : List SlideOutline × Option SlideOutline,
      (∀ s ∈ st.1, s.title ≠ []) → (∀ s, st.2 = some s → s.title ≠ []) →
      (∀ s ∈ (lines.foldl msStep st).1, s.title ≠ []) ∧
      (∀ s, (lines.foldl msStep st).2 = some s → s.title ≠ []) := by
  induction lines with
  | nil => intro st h1 h2; exact ⟨h1, h2⟩
  | cons l rest ih =>
    intro st h1 h2
    have hstep := msStep_titles st l h1 h2
    exact ih (msStep st l) hstep.1 hstep.2

/-- Helper for C8: every slide from `markdownToSlides` has a non-empty
title. -/
theorem markdownToSlides_titles (input : Str) :
    ∀ s ∈ markdownToSlides input, s.title ≠ [] := by
  intro s hs
  unfold markdownToSlides at hs
  have hfold := msFold_titles (splitOn1 '\n' (removeCR input)) ([], none)
    (by intro x hx; cases hx) (by intro x hx; cases hx)
  rcases List.mem_append.mp hs with hm | hm
  · exact hfold.1 s hm
  · rcases ho : ((splitOn1 '\n' (removeCR input)).foldl msStep ([], none)).2 with _ | c
    · rw [ho] at hm; cases hm
    · rw [ho] at hm
      rw [Option.toList_some, List.mem_singleton.mp hm] at *
      exact hfold.2 c ho

/-- C8: every `SlideOutline` produced by `parseSlidesFromOutline` or by
`markdownToSlides` has a non-empty title: slide titles come from a
non-blank line, a heading capture, or the generated fallback strings
(`幻灯片 N` and `概览`), all of which are non-empty. -/
theorem slide_titles_nonempty (input : Str) (s : SlideOutline)
    (h : s ∈ parseSlidesFromOutline input ∨ s ∈ markdownToSlides input) :
    s.title ≠ [] := by
  rcases h with h | h
  · exact parseSlides_titles input s h
  · exact markdownToSlides_titles input s h

/-- Witness for C8 on concrete outline and Markdown inputs. -/
theorem slide_titles_nonempty_witness :
    (SlideOutline.mk (str "Title") [str "bullet"]).title ≠ [] ∧
    (SlideOutline.mk (str "概览") [str "x"]).title ≠ [] :=
  ⟨slide_titles_nonempty (str "Title\nbullet") ⟨str "Title", [str "bullet"]⟩
      (Or.inl (by decide)),
    slide_titles_nonempty (str "- x") ⟨str "概览", [str "x"]⟩ (Or.inr (by decide))⟩

/-! ## C2: per-line behaviour of the Markdown-to-slides parser -/

/-- C2 (counterexample): a plain non-blank line with no open slide is
*not* appended as a bullet — it becomes the title of a new slide with no
bullets. -/
theorem markdownToSlides_plain_line_counterexample :
    markdownToSlides (str "hello") = [⟨str "hello", []⟩] := by
  decide

/-- C2 (amended): `markdownToSlides` folds `msStep` over the lines, and
for every state and every non-blank line: a heading line pushes the open
slide (if any) and starts a new slide titled with the heading text; a
bullet or numbered line appends the stripped item to the open slide,
auto-creating a slide with the fallback title `概览` ("overview") if none
is open; any other non-blank line is appended as a bullet verbatim to the
open slide if one is open, and otherwise becomes the title of a new
slide. -/
theorem msStep_line_behavior (acc : List SlideOutline) (cur : Option SlideOutline)
    (raw : Str) (hnb : trim raw ≠ []) :
    (∀ m, markdownToSlides m =
      ((splitOn1 '\n' (removeCR m)).foldl msStep ([], none)).1 ++
        ((splitOn1 '\n' (removeCR m)).foldl msStep ([], none)).2.toList) ∧
    (∀ n t, headingMatch (trim raw) = some (n, t) →
      msStep (acc, cur) raw = (acc ++ cur.toList, some ⟨t, []⟩)) ∧
    (∀ item, headingMatch (trim raw) = none → bulletMatchPlus (trim raw) = some item →
      msStep (acc, cur) raw = (acc, some (match cur with
        | some c => ⟨c.title, c.bullets ++ [item]⟩
        | none => ⟨str "概览", [item]⟩))) ∧
    (∀ item, headingMatch (trim raw) = none → bulletMatchPlus (trim raw) = none →
      orderedMatch (trim raw) = some item →
      msStep (acc, cur) raw = (acc, some (match cur with
        | some c => ⟨c.title, c.bullets ++ [item]⟩
        | none => ⟨str "概览", [item]⟩))) ∧
    (headingMatch (trim raw) = none → bulletMatchPlus (trim raw) = none →
      orderedMatch (trim raw) = none →
      msStep (acc, cur) raw = (acc, some (match cur with
        | some c => ⟨c.title, c.bullets ++ [trim raw]⟩
        | none => ⟨trim raw, []⟩))) := by
  refine ⟨fun m => rfl, ?_, ?_, ?_, ?_⟩
  · intro n t hh
    cases cur with
    | none => simp [msStep, if_neg hnb, hh]
    | some c => simp [msStep, if_neg hnb, hh]
  · intro item hh hbp
    cases cur with
    | none => simp [msStep, if_neg hnb, hh, hbp]
    | some c => simp [msStep, if_neg hnb, hh, hbp]
  · intro item hh hbp ho
    cases cur with
    | none => simp [msStep, if_neg hnb, hh, hbp, ho]
    | some c => simp [msStep, if_neg hnb, hh, hbp, ho]
  · intro hh hbp ho
    cases cur with
    | none => simp [msStep, if_neg hnb, hh, hbp, ho]
    | some c => simp [msStep, if_neg hnb, hh, hbp, ho]

/-- Witness for C2: the step function evaluated on a heading line, a
bullet line without an open slide, and a plain line without an open
slide. -/
theorem msStep_line_behavior_witness :
    msStep ([], none) (str "# T") = ([], some ⟨str "T", []⟩) ∧
    msStep ([], none) (str "- x") = ([], some ⟨str "概览", [str "x"]⟩) ∧
    msStep ([], none) (str "plain") = ([], some ⟨str "plain", []⟩) :=
  ⟨(msStep_line_behavior [] none (str "# T") (by decide)).2.1 1 (str "T") (by decide),
    (msStep_line_behavior [] none (str "- x") (by decide)).2.2.1 (str "x")
      (by decide) (by decide),
    (msStep_line_behavior [] none (str "plain") (by decide)).2.2.2.2
      (by decide) (by decide) (by decide)⟩


/-! ## C9: shape of the block-formatter output -/

/-- Whether a string contains three consecutive newline characters. -/
def hasTriple : Str → Bool
  | '\n' :: '\n' :: '\n' :: _ => true
  | _ :: rest => hasTriple rest
  | [] => false

theorem hasTriple_cons (c : Char) (t : Str)
    (h : ¬(c = '\n' ∧ ∃ t2, t = '\n' :: '\n' :: t2)) :
    hasTriple (c :: t) = hasTriple t := by
  rw [hasTriple.eq_def]
  split
  · rename_i rest heq
    rw [List.cons.injEq] at heq
    exact absurd ⟨heq.1, rest, heq.2⟩ h
  · rename_i a rest hne heq
    rw [List.cons.injEq] at heq
    rw [heq.2]
  · rename_i heq
    cases heq

theorem hasTriple_cons_of_head (c : Char) (t : Str) (h : t.head? ≠ some '\n') :
    hasTriple (c :: t) = hasTriple t := by
  refine hasTriple_cons c t ?_
  rintro ⟨-, t2, ht⟩
  rw [ht] at h
  simp at h

theorem hasTriple_cons_true (a : Char) (t : Str) (h : hasTriple t = true) :
    hasTriple (a :: t) = true := by
  rw [hasTriple.eq_def]
  split
  · rfl
  · rename_i c rest hne heq
    rw [List.cons.injEq] at heq
    rw [← heq.2]
    exact h
  · rename_i heq
    cases heq

theorem triple_infix_of_hasTriple {u : Str} (h : hasTriple u = true) :
    (['\n', '\n', '\n'] : Str) <:+: u := by
  induction u with
  | nil => cases h
  | cons a t ih =>
    rw [hasTriple.eq_def] at h
    revert h
    split
    · rename_i rest heq
      intro _
      rw [List.cons.injEq] at heq
      rw [heq.1, heq.2]
      exact ⟨[], rest, rfl⟩
    · rename_i c rest hne heq
      intro h
      rw [List.cons.injEq] at heq
      rw [← heq.2] at h
      exact (ih h).trans ⟨[a], [], by simp⟩
    · rename_i heq
      cases heq

theorem hasTriple_append_triple (p q : Str) :
    hasTriple (p ++ ['\n', '\n', '\n'] ++ q) = true := by
  induction p with
  | nil => rfl
  | cons a p2 ih =>
    rw [List.cons_append, List.cons_append]
    exact hasTriple_cons_true _ _ ih

theorem hasTriple_of_isInfix {u s : Str} (h : u <:+: s) (hu : hasTriple u = true) :
    hasTriple s = true := by
  rcases (triple_infix_of_hasTriple hu).trans h with ⟨p, q, hpq⟩
  rw [← hpq]
  exact hasTriple_append_triple p q

theorem hasTriple_infix_false {u s : Str} (h : u <:+: s) (hs : hasTriple s = false) :
    hasTriple u = false := by
  cases hu : hasTriple u with
  | false => rfl
  | true => rw [hasTriple_of_isInfix h hu] at hs; cases hs

theorem trim_isInfix (s : Str) : trim s <:+: s := by
  have h1 : trim s <+: trimL s := by
    rw [trim]
    exact List.rdropWhile_prefix isWS (trimL s)
  have h2 : trimL s <:+ s := List.dropWhile_suffix isWS
  exact List.IsInfix.trans h1.isInfix h2.isInfix

theorem collapseGo_nil (fuel : Nat) : collapseGo fuel [] = [] := by
  cases fuel <;> rfl

theorem collapseGo_head (fuel : Nat) (s : Str) :
    (collapseGo fuel s).head? = s.head? := by
  cases fuel with
  | zero => rfl
  | succ f =>
    rw [collapseGo.eq_def]
    split
    · rfl
    · split <;> rfl

theorem collapseGo_succ_cons (f : Nat) (c : Char) (t : Str)
    (h : ¬(c = '\n' ∧ ∃ t2, t = '\n' :: '\n' :: t2)) :
    collapseGo (f + 1) (c :: t) = c :: collapseGo f t := by
  rw [collapseGo.eq_def]
  split
  · rename_i heq
    exact absurd heq (by omega)
  · rename_i fuel heq
    have hf : fuel = f := by omega
    subst hf
    split
    · rename_i rest heq2
      rw [List.cons.injEq] at heq2
      exact absurd ⟨heq2.1, rest, heq2.2⟩ h
    · rename_i a rest hne heq2
      rw [List.cons.injEq] at heq2
      rw [heq2.1, heq2.2]
    · rename_i heq2
      cases heq2

theorem collapseGo_succ_triple (f : Nat) (rest : Str) :
    collapseGo (f + 1) ('\n' :: '\n' :: '\n' :: rest) =
      '\n' :: '\n' :: collapseGo f (rest.dropWhile (fun c => c = '\n')) := rfl

theorem head?_dropWhile_not (p : Char → Bool) (l : Str) (c : Char)
    (h : (l.dropWhile p).head? = some c) : p c = false := by
  induction l with
  | nil => cases h
  | cons a t ih =>
    rw [List.dropWhile_cons] at h
    by_cases hp : p a = true
    · rw [if_pos hp] at h
      exact ih h
    · rw [if_neg hp] at h
      rw [List.head?_cons, Option.some.injEq] at h
      rw [← h]
      revert hp
      cases p a <;> simp

theorem collapseGo_noTriple (fuel : Nat) :
    ∀ s : Str, s.length ≤ fuel → hasTriple (collapseGo fuel s) = false := by
  induction fuel using Nat.strong_induction_on with
  | _ fuel ih =>
    intro s hs
    match fuel, s with
    | 0, s =>
      have hnil : s = [] := List.eq_nil_of_length_eq_zero (Nat.le_zero.mp hs)
      rw [hnil]
      rfl
    | f + 1, [] =>
      rw [collapseGo_nil]
      rfl
    | f + 1, a :: t =>
      by_cases ha : a = '\n'
      case neg =>
        rw [collapseGo_succ_cons f a t (by rintro ⟨h1, -⟩; exact ha h1)]
        rw [hasTriple_cons a _ (by rintro ⟨h1, -⟩; exact ha h1)]
        refine ih f (by omega) t ?_
        simp only [List.length_cons] at hs
        omega
      case pos =>
        subst ha
        match t with
        | [] =>
          rw [collapseGo_succ_cons f '\n' [] (by rintro ⟨-, t2, ht⟩; cases ht)]
          rw [collapseGo_nil]
          rfl
        | b :: t2 =>
          by_cases hb : b = '\n'
          case neg =>
            rw [collapseGo_succ_cons f '\n' (b :: t2)
              (by rintro ⟨-, t3, ht⟩; rw [List.cons.injEq] at ht; exact hb ht.1)]
            have hhd : (collapseGo f (b :: t2)).head? ≠ some '\n' := by
              rw [collapseGo_head]
              intro hsome
              rw [List.head?_cons, Option.some.injEq] at hsome
              exact hb hsome
            rw [hasTriple_cons_of_head '\n' _ hhd]
            refine ih f (by omega) (b :: t2) ?_
            simp only [List.length_cons] at hs ⊢
            omega
          case pos =>
            subst hb
            match t2 with
            | [] =>
              rw [collapseGo_succ_cons f '\n' ['\n']
                (by rintro ⟨-, t3, ht⟩; rw [List.cons.injEq] at ht; cases ht.2)]
              simp only [List.length_cons, List.length_nil] at hs
              match f, (by omega : 1 ≤ f) with
              | f1 + 1, _ =>
                rw [collapseGo_succ_cons f1 '\n' [] (by rintro ⟨-, t3, ht⟩; cases ht)]
                rw [collapseGo_nil]
                rfl
            | c :: t3 =>
              by_cases hc : c = '\n'
              case pos =>
                subst hc
                rw [collapseGo_succ_triple]
                have hhd : (collapseGo f (t3.dropWhile (fun x => x = '\n'))).head? ≠
                    some '\n' := by
                  rw [collapseGo_head]
                  intro hsome
                  have := head?_dropWhile_not (fun x => decide (x = '\n')) t3 '\n' hsome
                  simp at this
                have hstep1 : hasTriple ('\n' :: '\n' ::
                    collapseGo f (t3.dropWhile (fun x => x = '\n'))) =
                    hasTriple ('\n' :: collapseGo f (t3.dropWhile (fun x => x = '\n'))) := by
                  refine hasTriple_cons '\n' _ ?_
                  rintro ⟨-, t4, ht⟩
                  rw [List.cons.injEq] at ht
                  rw [ht.2] at hhd
                  simp at hhd
                rw [hstep1, hasTriple_cons_of_head '\n' _ hhd]
                refine ih f (by omega) _ ?_
                have hlen := List.Sublist.length_le
                  (List.dropWhile_sublist (l := t3) (fun x => decide (x = '\n')))
                simp only [List.length_cons] at hs
                omega
              case neg =>
                rw [collapseGo_succ_cons f '\n' ('\n' :: c :: t3)
                  (by rintro ⟨-, t4, ht⟩
                      rw [List.cons.injEq, List.cons.injEq] at ht
                      exact hc ht.2.1)]
                simp only [List.length_cons] at hs
                match f, (by omega : 1 ≤ f) with
                | f1 + 1, _ =>
                  rw [collapseGo_succ_cons f1 '\n' (c :: t3)
                    (by rintro ⟨-, t4, ht⟩; rw [List.cons.injEq] at ht; exact hc ht.1)]
                  have hhd : (collapseGo f1 (c :: t3)).head? ≠ some '\n' := by
                    rw [collapseGo_head]
                    intro hsome
                    rw [List.head?_cons, Option.some.injEq] at hsome
                    exact hc hsome
                  have hstep1 : hasTriple ('\n' :: '\n' :: collapseGo f1 (c :: t3)) =
                      hasTriple ('\n' :: collapseGo f1 (c :: t3)) := by
                    refine hasTriple_cons '\n' _ ?_
                    rintro ⟨-, t4, ht⟩
                    rw [List.cons.injEq] at ht
                    rw [ht.2] at hhd
                    simp at hhd
                  rw [hstep1, hasTriple_cons_of_head '\n' _ hhd]
                  refine ih f1 (by omega) (c :: t3) ?_
                  simp only [List.length_cons]
                  omega

/-- C9: for every block sequence, `documentBlocksToMarkdown` returns a
string with no run of three or more consecutive newlines and no leading
or trailing whitespace: the formatter ends with the `\n{3,} → \n\n`
collapse followed by a trim. -/
theorem documentBlocksToMarkdown_clean (blocks : List DocumentBlock) :
    hasTriple (documentBlocksToMarkdown blocks) = false ∧
    trim (documentBlocksToMarkdown blocks) = documentBlocksToMarkdown blocks := by
  constructor
  · refine hasTriple_infix_false (trim_isInfix _) ?_
    exact collapseGo_noTriple _ _ (le_refl _)
  · exact trim_trim _

/-! ## C4: Markdown table round trip -/

theorem splitOn1_ne_nil (c : Char) (s : Str) : splitOn1 c s ≠ [] := by
  induction s with
  | nil => simp [splitOn1]
  | cons x rest ih =>
    rw [splitOn1]
    by_cases hx : x = c
    · rw [if_pos hx]; simp
    · rw [if_neg hx]
      rcases hs : splitOn1 c rest with _ | ⟨a, as⟩
      · simp
      · simp

theorem splitOn1_no_sep (c : Char) (p : Str) (h : c ∉ p) : splitOn1 c p = [p] := by
  induction p with
  | nil => rfl
  | cons x rest ih =>
    have hx : x ≠ c := by
      intro he; exact h (by rw [he]; exact List.mem_cons_self c rest)
    rw [splitOn1, if_neg hx, ih (fun hm => h (List.mem_cons_of_mem x hm))]

theorem splitOn1_append_sep (c : Char) (p rest : Str) (h : c ∉ p) :
    splitOn1 c (p ++ c :: rest) = p :: splitOn1 c rest := by
  induction p with
  | nil => rw [List.nil_append, splitOn1, if_pos rfl]
  | cons x p2 ih =>
    have hx : x ≠ c := by
      intro he; exact h (by rw [he]; exact List.mem_cons_self c p2)
    rw [List.cons_append, splitOn1, if_neg hx,
      ih (fun hm => h (List.mem_cons_of_mem x hm))]

theorem splitOn1_intercalate_trail (c : Char) (parts : List Str)
    (hne : parts ≠ []) (hmem : ∀ p ∈ parts, c ∉ p) :
    splitOn1 c (List.intercalate [c] parts ++ [c]) = parts ++ [[]] := by
  induction parts with
  | nil => cases hne rfl
  | cons p ps ih =>
    rcases ps with _ | ⟨q, qs⟩
    · have : List.intercalate [c] [p] = p := by simp [List.intercalate]
      rw [this]
      rw [show p ++ [c] = p ++ c :: [] from rfl]
      rw [splitOn1_append_sep c p [] (hmem p (List.mem_cons_self p []))]
      rfl
    · have hstep : List.intercalate [c] (p :: q :: qs) =
          p ++ [c] ++ List.intercalate [c] (q :: qs) := by
        simp [List.intercalate, List.intersperse]
      rw [hstep]
      rw [List.append_assoc, List.append_assoc]
      rw [show ([c] ++ (List.intercalate [c] (q :: qs) ++ [c])) =
        c :: (List.intercalate [c] (q :: qs) ++ [c]) from rfl]
      rw [splitOn1_append_sep c p _ (hmem p (List.mem_cons_self p _))]
      rw [ih (by simp) (fun x hx => hmem x (List.mem_cons_of_mem p hx))]
      rfl

theorem splitOn1_intercalate (c : Char) (parts : List Str)
    (hne : parts ≠ []) (hmem : ∀ p ∈ parts, c ∉ p) :
    splitOn1 c (List.intercalate [c] parts) = parts := by
  induction parts with
  | nil => cases hne rfl
  | cons p ps ih =>
    rcases ps with _ | ⟨q, qs⟩
    · have : List.intercalate [c] [p] = p := by simp [List.intercalate]
      rw [this, splitOn1_no_sep c p (hmem p (List.mem_cons_self p []))]
    · have hstep : List.intercalate [c] (p :: q :: qs) =
          p ++ [c] ++ List.intercalate [c] (q :: qs) := by
        simp [List.intercalate, List.intersperse]
      rw [hstep, List.append_assoc]
      rw [show ([c] ++ List.intercalate [c] (q :: qs)) =
        c :: List.intercalate [c] (q :: qs) from rfl]
      rw [splitOn1_append_sep c p _ (hmem p (List.mem_cons_self p _))]
      rw [ih (by simp) (fun x hx => hmem x (List.mem_cons_of_mem p hx))]

theorem not_mem_intercalate {c : Char} (sep : Str) (parts : List Str)
    (hsep : c ∉ sep) (hmem : ∀ p ∈ parts, c ∉ p) :
    c ∉ List.intercalate sep parts := by
  induction parts with
  | nil => simp [List.intercalate]
  | cons p ps ih =>
    rcases ps with _ | ⟨q, qs⟩
    · have : List.intercalate sep [p] = p := by simp [List.intercalate]
      rw [this]
      exact hmem p (List.mem_cons_self p [])
    · have hstep : List.intercalate sep (p :: q :: qs) =
          p ++ sep ++ List.intercalate sep (q :: qs) := by
        simp [List.intercalate, List.intersperse]
      rw [hstep]
      intro hc
      rcases List.mem_append.mp hc with hc1 | hc1
      · rcases List.mem_append.mp hc1 with hc2 | hc2
        · exact hmem p (List.mem_cons_self p _) hc2
        · exact hsep hc2
      · exact ih (fun x hx => hmem x (List.mem_cons_of_mem p hx)) hc1

theorem trim_pad (x : Str) (hx : trim x = x) : trim (' ' :: x ++ [' ']) = x := by
  rcases x with _ | ⟨z, x2⟩
  · decide
  · have hz : isWS z = false := by
      have h1 := (trim_fixed_split hx).1
      rw [trimL_eq_self_iff] at h1
      exact h1 z rfl
    have h1 : trimL (' ' :: (z :: x2) ++ [' ']) = (z :: x2) ++ [' '] := by
      simp only [trimL, List.cons_append, List.dropWhile_cons]
      rw [if_pos (by decide), if_neg (by rw [hz]; simp)]
    rw [trim, h1, trimR_eq]
    rw [List.rdropWhile_concat_pos _ _ ' ' (by decide)]
    rw [← trimR_eq]
    exact (trim_fixed_split hx).2

theorem pipe_row_mid (cells : List Str) (hne : cells ≠ []) :
    ' ' :: List.intercalate (str " | ") cells ++ [' '] =
      List.intercalate ['|'] (cells.map (fun x => ' ' :: x ++ [' '])) := by
  induction cells with
  | nil => cases hne rfl
  | cons c cs ih =>
    rcases cs with _ | ⟨q, qs⟩
    · simp [List.intercalate]
    · have hstepL : List.intercalate (str " | ") (c :: q :: qs) =
          c ++ str " | " ++ List.intercalate (str " | ") (q :: qs) := by
        simp [List.intercalate, List.intersperse]
      have hstepR : List.intercalate ['|'] ((c :: q :: qs).map (fun x => ' ' :: x ++ [' '])) =
          (' ' :: c ++ [' ']) ++ ['|'] ++
            List.intercalate ['|'] ((q :: qs).map (fun x => ' ' :: x ++ [' '])) := by
        simp [List.intercalate, List.intersperse]
      rw [hstepL, hstepR, ← ih (by simp)]
      have e1 : str " | " = [' ', '|', ' '] := rfl
      rw [e1]
      simp [List.append_assoc]

theorem rowCells_render (cells : List Str) (hne : cells ≠ [])
    (hc : ∀ x ∈ cells, '|' ∉ x ∧ trim x = x) :
    rowCells (str "| " ++ List.intercalate (str " | ") cells ++ str " |") = cells := by
  have hform : str "| " ++ List.intercalate (str " | ") cells ++ str " |" =
      '|' :: (List.intercalate ['|'] (cells.map (fun x => ' ' :: x ++ [' '])) ++ ['|']) := by
    rw [← pipe_row_mid cells hne]
    have e1 : str "| " = ['|', ' '] := rfl
    have e2 : str " |" = [' ', '|'] := rfl
    rw [e1, e2]
    simp [List.append_assoc]
  rw [hform]
  unfold rowCells
  rw [splitOn1, if_pos rfl]
  rw [show (List.intercalate ['|'] (cells.map fun x => ' ' :: x ++ [' ']) ++ ['|']) =
      (List.intercalate ['|'] (cells.map fun x => ' ' :: x ++ [' ']) ++ '|' :: []) from rfl]
  rw [splitOn1_intercalate_trail '|' _ (by simp [hne]) ?hmem]
  case hmem =>
    intro p hp
    rcases List.mem_map.mp hp with ⟨x, hx, hpx⟩
    rw [← hpx]
    intro hmem2
    cases hmem2 with
    | tail _ hmem3 =>
      rcases List.mem_append.mp hmem3 with h4 | h4
      · exact (hc x hx).1 h4
      · simp at h4
  rw [List.drop_one, List.tail_cons, List.dropLast_concat, List.map_map]
  have hmapid : ∀ x ∈ cells, (trim ∘ fun x => ' ' :: x ++ [' ']) x = x := by
    intro x hx
    exact trim_pad x (hc x hx).2
  rw [List.map_congr_left hmapid]
  simp

theorem isPipedRow_wrap (m : Str) (hm : m ≠ []) :
    isPipedRow ('|' :: (m ++ ['|'])) = true := by
  have hfix : trim ('|' :: (m ++ ['|'])) = '|' :: (m ++ ['|']) := by
    refine trim_fixed_of_split ?_ ?_
    · rw [trimL_eq_self_iff]
      intro c hc
      rw [List.head?_cons, Option.some.injEq] at hc
      rw [← hc]
      decide
    · rw [trimR_eq_self_iff]
      intro c hc
      rw [show '|' :: (m ++ ['|']) = ('|' :: m) ++ ['|'] from rfl] at hc
      rw [List.getLast?_append_of_ne_nil _ (by simp)] at hc
      simp only [List.getLast?_singleton, Option.some.injEq] at hc
      rw [← hc]
      decide
  have hlen : 3 ≤ ('|' :: (m ++ ['|'])).length := by
    have := List.length_pos.mpr hm
    simp only [List.length_cons, List.length_append, List.length_singleton]
    omega
  have hlast : ('|' :: (m ++ ['|'])).getLast? = some '|' := by
    rw [show '|' :: (m ++ ['|']) = ('|' :: m) ++ ['|'] from rfl]
    rw [List.getLast?_append_of_ne_nil _ (by simp)]
    rfl
  simp only [isPipedRow, hfix]
  rw [List.head?_cons]
  rw [hlast]
  simp only [beq_self_eq_true, Bool.and_true]
  have := List.length_pos.mpr hm
  simp
  omega

theorem isSeparatorLine_dash (rest : Str) :
    isSeparatorLine ('|' :: ' ' :: '-' :: '-' :: '-' :: rest) = true := by
  rw [isSeparatorLine]
  rw [show matchesSepAt (' ' :: '-' :: '-' :: '-' :: rest) = true from rfl]
  rfl

theorem takeWhile_all (p : Str → Bool) : ∀ L : List Str, (∀ l ∈ L, p l = true) →
    L.takeWhile p = L := by
  intro L hL
  induction L with
  | nil => rfl
  | cons a as ih =>
    rw [List.takeWhile_cons, if_pos (hL a (List.mem_cons_self a as))]
    rw [ih (fun l hl => hL l (List.mem_cons_of_mem a hl))]

theorem row_line_form (cells : List Str) (hne : cells ≠ []) :
    str "| " ++ List.intercalate (str " | ") cells ++ str " |" =
      '|' :: (List.intercalate ['|'] (cells.map (fun x => ' ' :: x ++ [' '])) ++ ['|']) := by
  rw [← pipe_row_mid cells hne]
  have e1 : str "| " = ['|', ' '] := rfl
  have e2 : str " |" = [' ', '|'] := rfl
  rw [e1, e2]
  simp [List.append_assoc]

theorem intercalate_pads_ne_nil (cells : List Str) (hne : cells ≠ []) :
    List.intercalate ['|'] (cells.map (fun x => ' ' :: x ++ [' '])) ≠ [] := by
  rcases cells with _ | ⟨c, cs⟩
  · cases hne rfl
  · rcases cs with _ | ⟨q, qs⟩
    · simp [List.intercalate]
    · simp [List.intercalate, List.intersperse]

theorem isPipedRow_render (cells : List Str) (hne : cells ≠ []) :
    isPipedRow (str "| " ++ List.intercalate (str " | ") cells ++ str " |") = true := by
  rw [row_line_form cells hne]
  exact isPipedRow_wrap _ (intercalate_pads_ne_nil cells hne)

theorem row_line_not_mem {c : Char} (r : List Str) (hc : ∀ x ∈ r, c ∉ x)
    (h1 : c ∉ str "| ") (h2 : c ∉ str " | ") (h3 : c ∉ str " |") :
    c ∉ str "| " ++ List.intercalate (str " | ") r ++ str " |" := by
  intro hmem
  rcases List.mem_append.mp hmem with hm1 | hm1
  · rcases List.mem_append.mp hm1 with hm2 | hm2
    · exact h1 hm2
    · exact not_mem_intercalate (str " | ") r h2 hc hm2
  · exact h3 hm1

/-- The well-formedness a cell needs for the Markdown-table round trip. -/
def cellOK (x : Str) : Prop :=
  '|' ∉ x ∧ '\n' ∉ x ∧ '\r' ∉ x ∧ trim x = x

instance (x : Str) : Decidable (cellOK x) := by
  unfold cellOK; infer_instance

/-- C4 (counterexample): the round trip fails for a `TableData` whose
cell has leading whitespace — `parseMarkdownTable` trims every cell, so
the cell comes back changed. -/
theorem parseMarkdownTable_roundtrip_counterexample :
    parseMarkdownTable (tableToMarkdown ⟨[str " a"], []⟩) = some ⟨[str "a"], []⟩ ∧
    parseMarkdownTable (tableToMarkdown ⟨[str " a"], []⟩) ≠ some ⟨[str " a"], []⟩ := by
  exact ⟨by decide, by decide⟩

/-- C4 (amended): for every `TableData` whose header list is non-empty,
whose rows are all non-empty, and whose cells contain no `'|'`, `'\n'`
or `'\r'` and carry no leading or trailing whitespace,
`parseMarkdownTable (tableToMarkdown t)` returns exactly `t`.  (Cells
with untrimmed whitespace, pipes, or newlines, empty header lists, and
empty rows all break the round trip, as the counterexample shows for
whitespace.) -/
theorem parseMarkdownTable_tableToMarkdown (t : TableData)
    (hh : t.headers ≠ [])
    (hhc : ∀ x ∈ t.headers, cellOK x)
    (hrc : ∀ r ∈ t.rows, r ≠ [] ∧ ∀ x ∈ r, cellOK x) :
    parseMarkdownTable (tableToMarkdown t) = some t := by
  obtain ⟨headers, rows⟩ := t
  simp only at hh hhc hrc
  have hlineN : ∀ r : List Str, (∀ x ∈ r, cellOK x) →
      '\n' ∉ (str "| " ++ List.intercalate (str " | ") r ++ str " |") ∧
      '\r' ∉ (str "| " ++ List.intercalate (str " | ") r ++ str " |") := by
    intro r hr
    constructor
    · exact row_line_not_mem r (fun x hx => (hr x hx).2.1) (by decide) (by decide) (by decide)
    · exact row_line_not_mem r (fun x hx => (hr x hx).2.2.1) (by decide) (by decide) (by decide)
  have hdashOK : ∀ x ∈ (headers.map fun _ => str "---"), cellOK x := by
    intro x hx
    rcases List.mem_map.mp hx with ⟨y, _, hxy⟩
    rw [← hxy]
    decide
  have hlinesOK : ∀ l ∈ ((str "| " ++ List.intercalate (str " | ") headers ++ str " |") ::
      (str "| " ++ List.intercalate (str " | ") (headers.map fun _ => str "---") ++ str " |") ::
      rows.map (fun r => str "| " ++ List.intercalate (str " | ") r ++ str " |")),
      '\n' ∉ l ∧ '\r' ∉ l := by
    intro l hl
    rcases List.mem_cons.mp hl with h | h
    · rw [h]; exact hlineN headers hhc
    · rcases List.mem_cons.mp h with h2 | h2
      · rw [h2]; exact hlineN _ hdashOK
      · rcases List.mem_map.mp h2 with ⟨r, hrmem, hrl⟩
        rw [← hrl]; exact hlineN r (hrc r hrmem).2
  have hmd : tableToMarkdown ⟨headers, rows⟩ =
      List.intercalate ['\n'] ((str "| " ++ List.intercalate (str " | ") headers ++ str " |") ::
        (str "| " ++ List.intercalate (str " | ") (headers.map fun _ => str "---") ++ str " |") ::
        rows.map (fun r => str "| " ++ List.intercalate (str " | ") r ++ str " |")) := rfl
  have hnoCR : '\r' ∉ tableToMarkdown ⟨headers, rows⟩ := by
    rw [hmd]
    exact not_mem_intercalate ['\n'] _ (by decide) (fun l hl => (hlinesOK l hl).2)
  have hrm : removeCR (tableToMarkdown ⟨headers, rows⟩) = tableToMarkdown ⟨headers, rows⟩ := by
    unfold removeCR
    rw [List.filter_eq_self.mpr]
    intro a ha
    simp only [ne_eq, decide_not, Bool.not_eq_eq_eq_not, Bool.not_true, decide_eq_false_iff_not]
    intro he
    rw [he] at ha
    exact hnoCR ha
  have hsplit : splitOn1 '\n' (removeCR (tableToMarkdown ⟨headers, rows⟩)) =
      (str "| " ++ List.intercalate (str " | ") headers ++ str " |") ::
      (str "| " ++ List.intercalate (str " | ") (headers.map fun _ => str "---") ++ str " |") ::
      rows.map (fun r => str "| " ++ List.intercalate (str " | ") r ++ str " |") := by
    rw [hrm, hmd]
    exact splitOn1_intercalate '\n' _ (by simp) (fun l hl => (hlinesOK l hl).1)
  have hsep : isSeparatorLine
      (str "| " ++ List.intercalate (str " | ") (headers.map fun _ => str "---") ++ str " |") =
      true := by
    rcases headers with _ | ⟨h0, hs⟩
    · cases hh rfl
    · rcases hs with _ | ⟨h1, hs2⟩
      · rw [show List.map (fun _ => str "---") [h0] = [str "---"] from rfl]
        decide
      · have hstep : List.intercalate (str " | ") ((h0 :: h1 :: hs2).map fun _ => str "---") =
            str "---" ++ str " | " ++
              List.intercalate (str " | ") ((h1 :: hs2).map fun _ => str "---") := by
          simp [List.intercalate, List.intersperse]
        rw [hstep]
        have e1 : str "| " = ['|', ' '] := rfl
        have e2 : str " | " = [' ', '|', ' '] := rfl
        have e3 : str "---" = ['-', '-', '-'] := rfl
        have hshape : str "| " ++ (str "---" ++ str " | " ++
            List.intercalate (str " | ") ((h1 :: hs2).map fun _ => str "---")) ++ str " |" =
            '|' :: ' ' :: '-' :: '-' :: '-' :: (str " | " ++
              List.intercalate (str " | ") ((h1 :: hs2).map fun _ => str "---") ++ str " |") := by
          rw [e1, e2, e3]
          simp [List.append_assoc]
        rw [hshape]
        exact isSeparatorLine_dash _
  unfold parseMarkdownTable
  rw [hsplit]
  rw [pmtFind]
  rw [isPipedRow_render headers hh, if_pos rfl]
  rw [hsep, if_pos rfl]
  rw [rowCells_render headers hh (fun x hx => ⟨(hhc x hx).1, (hhc x hx).2.2.2⟩)]
  rw [if_neg hh]
  have htw : (rows.map (fun r => str "| " ++ List.intercalate (str " | ") r ++ str " |")).takeWhile
      isPipedRow = rows.map (fun r => str "| " ++ List.intercalate (str " | ") r ++ str " |") := by
    refine takeWhile_all _ _ ?_
    intro l hl
    rcases List.mem_map.mp hl with ⟨r, hrmem, hrl⟩
    rw [← hrl]
    exact isPipedRow_render r (hrc r hrmem).1
  rw [htw, List.map_map]
  have hbody : ∀ r ∈ rows,
      (rowCells ∘ fun r => str "| " ++ List.intercalate (str " | ") r ++ str " |") r = r := by
    intro r hrmem
    exact rowCells_render r (hrc r hrmem).1
      (fun x hx => ⟨((hrc r hrmem).2 x hx).1, ((hrc r hrmem).2 x hx).2.2.2⟩)
  rw [List.map_congr_left hbody]
  simp

/-- Witness for C4 on a concrete well-formed table. -/
theorem parseMarkdownTable_tableToMarkdown_witness :
    parseMarkdownTable (tableToMarkdown ⟨[str "a", str "b"], [[str "1", str "2"]]⟩) =
      some ⟨[str "a", str "b"], [[str "1", str "2"]]⟩ :=
  parseMarkdownTable_tableToMarkdown ⟨[str "a", str "b"], [[str "1", str "2"]]⟩
    (by decide) (by decide) (by decide)

/-! ## C5: CSV round trip -/

theorem splitOn1_not_mem_sep (c : Char) (s : Str) : ∀ p ∈ splitOn1 c s, c ∉ p := by
  induction s with
  | nil =>
    intro p hp
    simp only [splitOn1, List.mem_singleton] at hp
    rw [hp]
    simp
  | cons x rest ih =>
    intro p hp
    rw [splitOn1] at hp
    by_cases hx : x = c
    · rw [if_pos hx] at hp
      rcases List.mem_cons.mp hp with h | h
      · rw [h]; simp
      · exact ih p h
    · rw [if_neg hx] at hp
      rcases hs : splitOn1 c rest with _ | ⟨a, as⟩
      · rw [hs] at hp
        simp only [List.mem_singleton] at hp
        rw [hp]
        intro hm
        rcases List.mem_singleton.mp hm with h
        exact hx h.symm
      · rw [hs] at hp
        rcases List.mem_cons.mp hp with h | h
        · rw [h]
          intro hm
          rcases List.mem_cons.mp hm with h2 | h2
          · exact hx h2.symm
          · exact ih a (by rw [hs]; exact List.mem_cons_self a as) h2
        · exact ih p (by rw [hs]; exact List.mem_cons_of_mem a h)

theorem splitLinesGo_mem (L : List Str) : ∀ l ∈ splitLinesGo L, ∃ p ∈ L, l.Sublist p := by
  induction L with
  | nil => intro l hl; cases hl
  | cons a rest ih =>
    intro l hl
    rcases rest with _ | ⟨b, bs⟩
    · simp only [splitLinesGo, List.mem_singleton] at hl
      exact ⟨a, List.mem_cons_self a [], by rw [hl]⟩
    · replace hl : l ∈ dropCR1 a :: splitLinesGo (b :: bs) := hl
      rcases List.mem_cons.mp hl with h | h
      · refine ⟨a, List.mem_cons_self a _, ?_⟩
        rw [h]
        unfold dropCR1
        rcases hg : a.getLast? with _ | c
        · exact List.Sublist.refl a
        · show List.Sublist (if c = '\r' then List.dropLast a else a) a
          by_cases hc : c = '\r'
          · rw [if_pos hc]
            exact List.dropLast_sublist a
          · rw [if_neg hc]
      · rcases ih l h with ⟨p, hp, hsub⟩
        exact ⟨p, List.mem_cons_of_mem a hp, hsub⟩

/-- Characters of `splitTableRow` cells come from the accumulator or the
input line. -/
theorem splitTableRowGo_chars (s : Str) :
    ∀ (inQ : Bool) (cur : Str) (cell : Str), cell ∈ splitTableRowGo s inQ cur →
      ∀ ch ∈ cell, ch ∈ cur ∨ ch ∈ s := by
  induction s with
  | nil =>
    intro inQ cur cell hcell ch hch
    simp only [splitTableRowGo, List.mem_singleton] at hcell
    rw [hcell] at hch
    exact Or.inl (mem_of_mem_trim hch)
  | cons c rest ih =>
    intro inQ cur cell hcell ch hch
    by_cases hq : c = '\"'
    · rw [splitTableRowGo, if_pos hq] at hcell
      rcases ih (!inQ) cur cell hcell ch hch with h | h
      · exact Or.inl h
      · exact Or.inr (List.mem_cons_of_mem c h)
    · rw [splitTableRowGo, if_neg hq] at hcell
      by_cases hsep : ((c = ',' || c = '\t') && !inQ) = true
      · rw [if_pos hsep] at hcell
        rcases List.mem_cons.mp hcell with h | h
        · rw [h] at hch
          exact Or.inl (mem_of_mem_trim hch)
        · rcases ih inQ [] cell h ch hch with h2 | h2
          · cases h2
          · exact Or.inr (List.mem_cons_of_mem c h2)
      · rw [if_neg hsep] at hcell
        rcases ih inQ (cur ++ [c]) cell hcell ch hch with h2 | h2
        · rcases List.mem_append.mp h2 with h3 | h3
          · exact Or.inl h3
          · rw [List.mem_singleton.mp h3]
            exact Or.inr (List.mem_cons_self c rest)
        · exact Or.inr (List.mem_cons_of_mem c h2)

/-- Helper: cells of a `parseTable` result contain no newline. -/
theorem parseTable_cells_no_nl {text : Str} {t : TableData} (h : parseTable text = some t) :
    ∀ cell, (cell ∈ t.headers ∨ ∃ r ∈ t.rows, cell ∈ r) → '\n' ∉ cell := by
  have hline : ∀ l ∈ ((splitLines text).map trim).filter (fun r => r ≠ []), '\n' ∉ l := by
    intro l hl
    rcases List.mem_map.mp (List.mem_of_mem_filter hl) with ⟨l0, hl0, hlt⟩
    rcases splitLinesGo_mem (splitOn1 '\n' text) l0 hl0 with ⟨p, hp, hsub⟩
    intro hmem
    exact splitOn1_not_mem_sep '\n' text p hp
      (hsub.mem (mem_of_mem_trim (by rw [hlt]; exact hmem)))
  rw [parseTable_def] at h
  rcases hr : rawRows text with _ | ⟨r0, rs⟩
  · rw [hr] at h; cases h
  · rw [hr] at h
    cases h
    have hraw : ∀ x ∈ r0 :: rs, ∀ cell ∈ x, '\n' ∉ cell := by
      intro x hx cell hcell
      rw [← hr] at hx
      rcases List.mem_map.mp hx with ⟨line, hlmem, hline2⟩
      intro hmem
      rw [← hline2] at hcell
      rcases splitTableRowGo_chars line false [] cell hcell '\n' hmem with h2 | h2
      · cases h2
      · exact hline line hlmem h2
    have hpad : ∀ x ∈ r0 :: rs, ∀ cell ∈ padTo (maxLen (r0 :: rs)) x, '\n' ∉ cell := by
      intro x hx cell hcell
      rcases List.mem_append.mp hcell with hmem | hmem
      · exact hraw x hx cell hmem
      · rw [List.eq_of_mem_replicate hmem]
        simp
    intro cell hcell
    rcases hcell with hmem | ⟨r, hrow, hmem⟩
    · exact hpad r0 (List.mem_cons_self r0 rs) cell hmem
    · rcases List.mem_map.mp hrow with ⟨x, hx, hpadx⟩
      rw [← hpadx] at hmem
      exact hpad x (List.mem_cons_of_mem r0 hx) cell hmem

theorem splitTableRowGo_ne_nil (s : Str) : ∀ inQ cur, splitTableRowGo s inQ cur ≠ [] := by
  induction s with
  | nil => intro inQ cur; simp [splitTableRowGo]
  | cons c rest ih =>
    intro inQ cur
    by_cases hq : c = '\"'
    · rw [splitTableRowGo, if_pos hq]; exact ih (!inQ) cur
    · rw [splitTableRowGo, if_neg hq]
      by_cases hsep : ((c = ',' || c = '\t') && !inQ) = true
      · rw [if_pos hsep]; simp
      · rw [if_neg hsep]; exact ih inQ (cur ++ [c])

/-- Helper: a `parseTable` result has at least one column. -/
theorem parseTable_headers_ne_nil {text : Str} {t : TableData} (h : parseTable text = some t) :
    t.headers ≠ [] := by
  rw [parseTable_def] at h
  rcases hr : rawRows text with _ | ⟨r0, rs⟩
  · rw [hr] at h; cases h
  · rw [hr] at h
    cases h
    have hr0 : r0 ≠ [] := by
      have : r0 ∈ rawRows text := by rw [hr]; exact List.mem_cons_self r0 rs
      rcases List.mem_map.mp this with ⟨line, _, hline⟩
      rw [← hline]
      exact splitTableRowGo_ne_nil line false []
    simp only [padTo, ne_eq, List.append_eq_nil]
    intro hc
    exact hr0 hc.1

theorem escQ_id (x : Str) (h : '\"' ∉ x) : escQ x = x := by
  induction x with
  | nil => rfl
  | cons c rest ih =>
    have hc : c ≠ '\"' := by
      intro he; exact h (by rw [he]; exact List.mem_cons_self _ _)
    unfold escQ
    rw [List.foldr_cons, if_neg hc]
    have := ih (fun hm => h (List.mem_cons_of_mem c hm))
    unfold escQ at this
    rw [this]

theorem escQ_chars (x : Str) : ∀ ch ∈ escQ x, ch ∈ x ∨ ch = '\"' := by
  induction x with
  | nil => intro ch hch; cases hch
  | cons c rest ih =>
    intro ch hch
    unfold escQ at hch
    rw [List.foldr_cons] at hch
    by_cases hc : c = '\"'
    · rw [if_pos hc] at hch
      rcases List.mem_cons.mp hch with h | h
      · exact Or.inr h
      · rcases List.mem_cons.mp h with h2 | h2
        · exact Or.inr h2
        · rcases ih ch h2 with h3 | h3
          · exact Or.inl (List.mem_cons_of_mem c h3)
          · exact Or.inr h3
    · rw [if_neg hc] at hch
      rcases List.mem_cons.mp hch with h | h
      · exact Or.inl (by rw [h]; exact List.mem_cons_self c rest)
      · rcases ih ch h with h3 | h3
        · exact Or.inl (List.mem_cons_of_mem c h3)
        · exact Or.inr h3

theorem escapeCell_chars (x : Str) : ∀ ch ∈ escapeCell x, ch ∈ x ∨ ch = '\"' := by
  intro ch hch
  unfold escapeCell at hch
  split at hch
  · rcases List.mem_cons.mp hch with h | h
    · exact Or.inr h
    · rcases List.mem_append.mp h with h2 | h2
      · exact escQ_chars x ch h2
      · exact Or.inr (List.mem_singleton.mp h2)
  · exact Or.inl hch

theorem stgo_bare (x : Str) (h1 : ',' ∉ x) (h2 : '\t' ∉ x) (h3 : '\"' ∉ x) :
    ∀ (rest cur : Str),
      splitTableRowGo (x ++ rest) false cur = splitTableRowGo rest false (cur ++ x) := by
  induction x with
  | nil => intro rest cur; rw [List.nil_append, List.append_nil]
  | cons c x2 ih =>
    intro rest cur
    have hc1 : c ≠ ',' := fun he => h1 (by rw [he]; exact List.mem_cons_self _ _)
    have hc2 : c ≠ '\t' := fun he => h2 (by rw [he]; exact List.mem_cons_self _ _)
    have hc3 : c ≠ '\"' := fun he => h3 (by rw [he]; exact List.mem_cons_self _ _)
    rw [List.cons_append, splitTableRowGo, if_neg hc3,
      if_neg (by simp [hc1, hc2])]
    rw [ih (fun hm => h1 (List.mem_cons_of_mem c hm))
        (fun hm => h2 (List.mem_cons_of_mem c hm))
        (fun hm => h3 (List.mem_cons_of_mem c hm)) rest (cur ++ [c])]
    rw [List.append_assoc]
    rfl

theorem stgo_quoted (x : Str) (h3 : '\"' ∉ x) :
    ∀ (rest cur : Str),
      splitTableRowGo (x ++ rest) true cur = splitTableRowGo rest true (cur ++ x) := by
  induction x with
  | nil => intro rest cur; rw [List.nil_append, List.append_nil]
  | cons c x2 ih =>
    intro rest cur
    have hc3 : c ≠ '\"' := fun he => h3 (by rw [he]; exact List.mem_cons_self _ _)
    rw [List.cons_append, splitTableRowGo, if_neg hc3, if_neg (by simp)]
    rw [ih (fun hm => h3 (List.mem_cons_of_mem c hm)) rest (cur ++ [c])]
    rw [List.append_assoc]
    rfl

theorem stgo_cell (x : Str) (h3 : '\"' ∉ x) (_hnl : '\n' ∉ x) (htab : '\t' ∉ x) :
    ∀ rest : Str,
      splitTableRowGo (escapeCell x ++ rest) false [] = splitTableRowGo rest false x := by
  intro rest
  unfold escapeCell
  by_cases hw : (x.contains ',' || x.contains '\"' || x.contains '\n') = true
  · rw [if_pos hw, escQ_id x h3]
    have hshape : ('\"' :: (x ++ ['\"'])) ++ rest = '\"' :: (x ++ ('\"' :: rest)) := by
      simp
    rw [hshape, splitTableRowGo, if_pos rfl]
    show splitTableRowGo (x ++ '\"' :: rest) true [] = _
    rw [stgo_quoted x h3 ('\"' :: rest) []]
    rw [List.nil_append, splitTableRowGo, if_pos rfl]
    rfl
  · rw [if_neg hw]
    simp only [Bool.or_eq_true, not_or] at hw
    have hcomma : ',' ∉ x := by
      intro hm
      exact hw.1.1 (List.elem_eq_true_of_mem hm)
    rw [stgo_bare x hcomma htab h3 rest []]
    rw [List.nil_append]

theorem intercalate_cons2 (sep p : Str) (ps : List Str) (h : ps ≠ []) :
    List.intercalate sep (p :: ps) = p ++ sep ++ List.intercalate sep ps := by
  rcases ps with _ | ⟨q, qs⟩
  · cases h rfl
  · simp [List.intercalate, List.intersperse]

theorem stgo_row (r : List Str) (hne : r ≠ [])
    (hc : ∀ x ∈ r, '\"' ∉ x ∧ '\n' ∉ x ∧ '\t' ∉ x ∧ trim x = x) :
    splitTableRow (List.intercalate [','] (r.map escapeCell)) = r := by
  show splitTableRowGo (List.intercalate [','] (r.map escapeCell)) false [] = r
  induction r with
  | nil => cases hne rfl
  | cons x xs ih =>
    have hx := hc x (List.mem_cons_self x xs)
    rcases xs with _ | ⟨y, ys⟩
    · have h1 : List.intercalate [','] ([x].map escapeCell) = escapeCell x := by
        simp [List.intercalate]
      rw [h1, show escapeCell x = escapeCell x ++ [] from (List.append_nil _).symm]
      rw [stgo_cell x hx.1 hx.2.1 hx.2.2.1 []]
      rw [splitTableRowGo]
      rw [hx.2.2.2]
    · have h1 : List.intercalate [','] ((x :: y :: ys).map escapeCell) =
          escapeCell x ++ (',' :: List.intercalate [','] ((y :: ys).map escapeCell)) := by
        rw [List.map_cons, intercalate_cons2 [','] (escapeCell x) _ (by simp)]
        simp [List.append_assoc]
      rw [h1, stgo_cell x hx.1 hx.2.1 hx.2.2.1]
      rw [splitTableRowGo, if_neg (by decide), if_pos (by decide)]
      rw [hx.2.2.2]
      rw [ih (by simp) (fun z hz => hc z (List.mem_cons_of_mem x hz))]

theorem escapeCell_nil_iff (x : Str) : escapeCell x = [] ↔ x = [] := by
  unfold escapeCell
  split
  · rename_i hw
    constructor
    · intro h; cases h
    · intro h
      rw [h] at hw
      simp [List.contains] at hw
  · exact Iff.rfl

theorem escapeCell_ends (x : Str) (_h3 : '\"' ∉ x) (htr : trim x = x) :
    (∀ c, (escapeCell x).head? = some c → isWS c = false) ∧
    (∀ c, (escapeCell x).getLast? = some c → isWS c = false) := by
  unfold escapeCell
  split
  · constructor
    · intro c hc
      rw [List.head?_cons, Option.some.injEq] at hc
      rw [← hc]
      decide
    · intro c hc
      rw [show ('\"' :: (escQ x ++ ['\"'])) = ('\"' :: escQ x) ++ ['\"'] from by simp] at hc
      rw [List.getLast?_append_of_ne_nil _ (by simp)] at hc
      simp only [List.getLast?_singleton, Option.some.injEq] at hc
      rw [← hc]
      decide
  · constructor
    · intro c hc
      have := (trim_fixed_split htr).1
      rw [trimL_eq_self_iff] at this
      exact this c hc
    · intro c hc
      have := (trim_fixed_split htr).2
      rw [trimR_eq_self_iff] at this
      exact this c hc

theorem csvLine_head (r : List Str)
    (hc : ∀ x ∈ r, '\"' ∉ x ∧ trim x = x) :
    ∀ c, (List.intercalate [','] (r.map escapeCell)).head? = some c → isWS c = false := by
  intro c hc2
  rcases r with _ | ⟨x, xs⟩
  · simp [List.intercalate] at hc2
  · have hx := hc x (List.mem_cons_self x xs)
    rcases xs with _ | ⟨y, ys⟩
    · rw [show List.intercalate [','] ([x].map escapeCell) = escapeCell x from by
        simp [List.intercalate]] at hc2
      exact (escapeCell_ends x hx.1 hx.2).1 c hc2
    · rw [List.map_cons, intercalate_cons2 [','] (escapeCell x) _ (by simp)] at hc2
      rcases hesc : escapeCell x with _ | ⟨e0, es⟩
      · rw [hesc] at hc2
        rw [List.nil_append, List.cons_append, List.head?_cons, Option.some.injEq] at hc2
        rw [← hc2]
        decide
      · rw [hesc] at hc2
        rw [List.append_assoc, List.cons_append, List.head?_cons, Option.some.injEq] at hc2
        have := (escapeCell_ends x hx.1 hx.2).1 c
        rw [hesc] at this
        exact this (by rw [List.head?_cons, hc2])

theorem csvLine_last (r : List Str)
    (hc : ∀ x ∈ r, '\"' ∉ x ∧ trim x = x) :
    ∀ c, (List.intercalate [','] (r.map escapeCell)).getLast? = some c → isWS c = false := by
  induction r with
  | nil => intro c hc2; simp [List.intercalate] at hc2
  | cons x xs ih =>
    intro c hc2
    have hx := hc x (List.mem_cons_self x xs)
    rcases xs with _ | ⟨y, ys⟩
    · rw [show List.intercalate [','] ([x].map escapeCell) = escapeCell x from by
        simp [List.intercalate]] at hc2
      exact (escapeCell_ends x hx.1 hx.2).2 c hc2
    · rw [List.map_cons, intercalate_cons2 [','] (escapeCell x) _ (by simp)] at hc2
      rcases hic : List.intercalate [','] ((y :: ys).map escapeCell) with _ | ⟨i0, is⟩
      · rw [hic, List.append_nil] at hc2
        rw [List.getLast?_append_of_ne_nil _ (by simp : ([','] : Str) ≠ [])] at hc2
        rw [show (([','] : Str)).getLast? = some ',' from rfl, Option.some.injEq] at hc2
        rw [← hc2]
        decide
      · rw [hic] at hc2
        rw [List.append_assoc, List.getLast?_append_of_ne_nil _ (by simp)] at hc2
        rw [List.getLast?_append_of_ne_nil _ (by simp)] at hc2
        refine ih (fun z hz => hc z (List.mem_cons_of_mem x hz)) c ?_
        rw [hic]
        exact hc2

theorem csvLine_ne_nil (r : List Str) (hne : r ≠ []) (hnl : r ≠ [[]]) :
    List.intercalate [','] (r.map escapeCell) ≠ [] := by
  rcases r with _ | ⟨x, xs⟩
  · cases hne rfl
  · rcases xs with _ | ⟨y, ys⟩
    · rw [show List.intercalate [','] ([x].map escapeCell) = escapeCell x from by
        simp [List.intercalate]]
      intro h
      rw [escapeCell_nil_iff] at h
      exact hnl (by rw [h])
    · rw [List.map_cons, intercalate_cons2 [','] (escapeCell x) _ (by simp)]
      simp

theorem splitLinesGo_id (L : List Str) (h : ∀ l ∈ L, dropCR1 l = l) :
    splitLinesGo L = L := by
  induction L with
  | nil => rfl
  | cons a rest ih =>
    rcases rest with _ | ⟨b, bs⟩
    · rfl
    · show dropCR1 a :: splitLinesGo (b :: bs) = a :: b :: bs
      rw [h a (List.mem_cons_self a _), ih (fun l hl => h l (List.mem_cons_of_mem a hl))]

theorem dropCR1_of_last (l : Str) (h : ∀ c, l.getLast? = some c → isWS c = false) :
    dropCR1 l = l := by
  unfold dropCR1
  rcases hg : l.getLast? with _ | c
  · rfl
  · show (if c = '\r' then l.dropLast else l) = l
    rw [if_neg]
    intro he
    have := h c hg
    rw [he] at this
    cases this

theorem foldl_max_le_of (L : Nat) (rs : List (List Str)) (m : Nat)
    (h : ∀ r ∈ rs, r.length ≤ L) (hm : m ≤ L) :
    rs.foldl (fun a x => max a x.length) m ≤ L := by
  induction rs generalizing m with
  | nil => exact hm
  | cons r rest ih =>
    refine ih (max m r.length) (fun x hx => h x (List.mem_cons_of_mem r hx)) ?_
    exact max_le hm (h r (List.mem_cons_self r rest))

theorem padTo_self (cc : Nat) (r : List Str) (h : r.length = cc) : padTo cc r = r := by
  simp [padTo, h]

/-- C5 (counterexample): a tab inside a quoted cell survives `parseTable`
but is written back unquoted by `tableToCsv`, so the re-parse splits the
cell and the round trip changes the table. -/
theorem parseTable_csv_roundtrip_counterexample :
    parseTable (str "a\n\"x\ty\"") = some ⟨[str "a"], [[str "x\ty"]]⟩ ∧
    parseTable (tableToCsv ⟨[str "a"], [[str "x\ty"]]⟩) =
      some ⟨[str "a", str ""], [[str "x", str "y"]]⟩ ∧
    (⟨[str "a", str ""], [[str "x", str "y"]]⟩ : TableData) ≠ ⟨[str "a"], [[str "x\ty"]]⟩ := by
  exact ⟨by decide, by decide, by decide⟩

/-- C5 (amended): for every text `T` on which `parseTable` returns a
table `t`, if no cell of `t` contains a tab character and neither the
header row nor any body row is the degenerate single-empty-cell row,
then `parseTable (tableToCsv t)` returns exactly `t` (same headers and
same body-row cell values).  A tab inside a quoted cell, or a row that
renders as a blank CSV line, breaks the round trip. -/
theorem parseTable_tableToCsv (T : Str) (t : TableData)
    (h : parseTable T = some t)
    (hta : ∀ x ∈ t.headers, '\t' ∉ x)
    (htb : ∀ r ∈ t.rows, ∀ x ∈ r, '\t' ∉ x)
    (hh1 : t.headers ≠ [[]])
    (hr1 : ∀ r ∈ t.rows, r ≠ [[]]) :
    parseTable (tableToCsv t) = some t := by
  have hclean := parseTable_cells h
  have hnl := parseTable_cells_no_nl h
  have huni := parseTable_uniform h
  have hhne := parseTable_headers_ne_nil h
  obtain ⟨headers, rows⟩ := t
  dsimp only at hta htb hh1 hr1 hhne hclean hnl
  unfold rowsMatchHeaders at huni
  dsimp only at huni
  have hRS : ∀ r ∈ headers :: rows, r ≠ [] ∧ r ≠ [[]] ∧
      ∀ x ∈ r, '\"' ∉ x ∧ '\n' ∉ x ∧ '\t' ∉ x ∧ trim x = x := by
    intro r hr
    rcases List.mem_cons.mp hr with hcase | hcase
    · subst hcase
      refine ⟨hhne, hh1, ?_⟩
      intro x hx
      have h1 := hclean x (Or.inl hx)
      have h2 := hnl x (Or.inl hx)
      exact ⟨h1.1, h2, hta x hx, h1.2⟩
    · have hlen : r.length = headers.length := huni r hcase
      refine ⟨?_, hr1 r hcase, ?_⟩
      · intro he
        rw [he] at hlen
        simp only [List.length_nil] at hlen
        exact hhne (List.eq_nil_of_length_eq_zero hlen.symm)
      · intro x hx
        have h1 := hclean x (Or.inr ⟨r, hcase, hx⟩)
        have h2 := hnl x (Or.inr ⟨r, hcase, hx⟩)
        exact ⟨h1.1, h2, htb r hcase x hx, h1.2⟩
  have hlineFacts : ∀ l ∈ (headers :: rows).map
      (fun r => List.intercalate [','] (r.map escapeCell)),
      l ≠ [] ∧ trim l = l ∧ dropCR1 l = l ∧ '\n' ∉ l := by
    intro l hl
    rcases List.mem_map.mp hl with ⟨r, hr, hrl⟩
    subst hrl
    obtain ⟨hrne, hrnl, hrcells⟩ := hRS r hr
    have hhead := csvLine_head r (fun x hx => ⟨(hrcells x hx).1, (hrcells x hx).2.2.2⟩)
    have hlast := csvLine_last r (fun x hx => ⟨(hrcells x hx).1, (hrcells x hx).2.2.2⟩)
    refine ⟨csvLine_ne_nil r hrne hrnl, ?_, ?_, ?_⟩
    · exact trim_fixed_of_split ((trimL_eq_self_iff _).mpr hhead)
        ((trimR_eq_self_iff _).mpr hlast)
    · exact dropCR1_of_last _ hlast
    · refine not_mem_intercalate [','] _ (by decide) ?_
      intro p hp
      rcases List.mem_map.mp hp with ⟨x, hx, hpx⟩
      rw [← hpx]
      intro hmem
      rcases escapeCell_chars x '\n' hmem with hcase | hcase
      · exact (hrcells x hx).2.1 hcase
      · exact absurd hcase (by decide)
  have hsplit : splitLines (tableToCsv ⟨headers, rows⟩) =
      (headers :: rows).map (fun r => List.intercalate [','] (r.map escapeCell)) := by
    show splitLinesGo (splitOn1 '\n' (List.intercalate ['\n'] ((headers :: rows).map
      (fun r => List.intercalate [','] (r.map escapeCell))))) = _
    rw [splitOn1_intercalate '\n' _ (by simp) (fun l hl => (hlineFacts l hl).2.2.2)]
    exact splitLinesGo_id _ (fun l hl => (hlineFacts l hl).2.2.1)
  have hraw : rawRows (tableToCsv ⟨headers, rows⟩) = headers :: rows := by
    unfold rawRows
    rw [hsplit]
    rw [List.map_map]
    have hmt : ((headers :: rows).map
        (trim ∘ fun r => List.intercalate [','] (r.map escapeCell))) =
        (headers :: rows).map (fun r => List.intercalate [','] (r.map escapeCell)) := by
      refine List.map_congr_left ?_
      intro r hr
      exact (hlineFacts _ (List.mem_map_of_mem _ hr)).2.1
    rw [hmt]
    rw [List.filter_eq_self.mpr]
    · rw [List.map_map]
      have : ∀ r ∈ headers :: rows,
          (splitTableRow ∘ fun r => List.intercalate [','] (r.map escapeCell)) r = r := by
        intro r hr
        obtain ⟨hrne, _, hrcells⟩ := hRS r hr
        exact stgo_row r hrne hrcells
      rw [List.map_congr_left this]
      simp
    · intro a ha
      simp only [ne_eq, decide_eq_true_eq]
      exact (hlineFacts a ha).1
  rw [parseTable_def, hraw]
  show some (TableData.mk (padTo (maxLen (headers :: rows)) headers)
      (rows.map (padTo (maxLen (headers :: rows))))) = some (TableData.mk headers rows)
  have hmax : maxLen (headers :: rows) = headers.length := by
    refine le_antisymm ?_ ?_
    · refine foldl_max_le_of headers.length (headers :: rows) 0 ?_ (Nat.zero_le _)
      intro r hr
      rcases List.mem_cons.mp hr with hc | hc
      · rw [hc]
      · rw [huni r hc]
    · exact mem_le_foldl_max (headers :: rows) 0 headers (List.mem_cons_self _ _)
  rw [hmax, padTo_self _ _ rfl]
  have hrowsid : rows.map (padTo headers.length) = rows := by
    have : ∀ r ∈ rows, padTo headers.length r = r := by
      intro r hr
      exact padTo_self _ _ (huni r hr)
    rw [List.map_congr_left this]
    simp
  rw [hrowsid]

/-- Witness for C5 on a concrete well-formed input. -/
theorem parseTable_tableToCsv_witness :
    parseTable (str "a,b\n1,2") = some ⟨[str "a", str "b"], [[str "1", str "2"]]⟩ ∧
    parseTable (tableToCsv ⟨[str "a", str "b"], [[str "1", str "2"]]⟩) =
      some ⟨[str "a", str "b"], [[str "1", str "2"]]⟩ :=
  ⟨by decide,
    parseTable_tableToCsv (str "a,b\n1,2") ⟨[str "a", str "b"], [[str "1", str "2"]]⟩
      (by decide) (by decide) (by decide) (by decide) (by decide)⟩

/-! ## C6: document-block round trip -/

/-- What `createDocumentBlocks` guarantees about each block it emits. -/
def blockW : DocumentBlock → Prop
  | .heading n t => 1 ≤ n ∧ n ≤ 6 ∧ t ≠ [] ∧ trim t = t ∧ '\n' ∉ t ∧ '\r' ∉ t
  | .paragraph none t => t ≠ [] ∧ trim t = t ∧ '\n' ∉ t ∧ '\r' ∉ t
  | .paragraph (some lab) t => '\n' ∉ lab ∧ '\r' ∉ lab ∧ '\n' ∉ t ∧ '\r' ∉ t
  | .ulist items => items ≠ [] ∧ ∀ i ∈ items, i ≠ [] ∧ trim i = i ∧ '\n' ∉ i ∧ '\r' ∉ i
  | .olist items => items ≠ [] ∧ ∀ i ∈ items, i ≠ [] ∧ trim i = i ∧ '\n' ∉ i ∧ '\r' ∉ i

/-- The side condition of the amended C6: a plain paragraph's joined text
must not itself look like a heading, bullet, or numbered line. -/
def plainParaSafe : DocumentBlock → Prop
  | .paragraph none t =>
      headingMatch t = none ∧ bulletMatchDoc t = none ∧ orderedMatch t = none
  | _ => True

instance (b : DocumentBlock) : Decidable (plainParaSafe b) :=
  match b with
  | .heading _ _ => isTrue trivial
  | .paragraph none t => inferInstanceAs (Decidable
      (headingMatch t = none ∧ bulletMatchDoc t = none ∧ orderedMatch t = none))
  | .paragraph (some _) _ => isTrue trivial
  | .ulist _ => isTrue trivial
  | .olist _ => isTrue trivial

theorem rdrop_rtake (p : Char → Bool) (l : Str) :
    List.rdropWhile p l ++ List.rtakeWhile p l = l := by
  rw [List.rdropWhile, List.rtakeWhile, ← List.reverse_append,
    List.takeWhile_append_dropWhile, List.reverse_reverse]

theorem rdropWhile_append_ws (p : Char → Bool) (W : Str) (hW : ∀ c ∈ W, p c = true) :
    ∀ Y : Str, List.rdropWhile p (Y ++ W) = List.rdropWhile p Y := by
  induction W using List.reverseRecOn with
  | nil => intro Y; rw [List.append_nil]
  | append_singleton W2 w ih =>
    intro Y
    rw [← List.append_assoc]
    rw [List.rdropWhile_concat_pos p _ w (hW w (by simp))]
    exact ih (fun c hc => hW c (by simp [hc])) Y

theorem trimR_cons (a : Char) (s : Str) (h : isWS a = false) :
    trimR (a :: s) = a :: trimR s := by
  rcases htr : trimR s with _ | ⟨x, xs⟩
  · rw [trimR_eq] at htr
    rw [List.rdropWhile_eq_nil_iff] at htr
    rw [trimR_eq]
    rw [show a :: s = [a] ++ s from rfl]
    rw [rdropWhile_append_ws isWS s htr [a]]
    rw [show List.rdropWhile isWS [a] = List.rdropWhile isWS ([] ++ [a]) from by simp]
    rw [List.rdropWhile_concat, if_neg (by rw [h]; simp)]
    simp
  · have hsplit := rdrop_rtake isWS s
    rw [← trimR_eq] at hsplit
    have hne : trimR s ≠ [] := by rw [htr]; simp
    have hstep1 : trimR (a :: s) = trimR ([a] ++ trimR s) := by
      rw [trimR_eq, trimR_eq]
      rw [show a :: s = ([a] ++ trimR s) ++ List.rtakeWhile isWS s from by
        rw [List.append_assoc, hsplit]; rfl]
      rw [rdropWhile_append_ws isWS _ (fun c hc => List.mem_rtakeWhile_imp hc) _]
    have hstep2 : trimR ([a] ++ trimR s) = [a] ++ trimR s := by
      refine (trimR_eq_self_iff _).mpr ?_
      intro c hc
      rw [List.getLast?_append_of_ne_nil _ hne] at hc
      rw [List.getLast?_eq_getLast _ hne, Option.some.injEq] at hc
      rw [← hc]
      have h5 := List.rdropWhile_last_not isWS s
        (by rw [show List.rdropWhile isWS s = trimR s from (trimR_eq s).symm]; exact hne)
      simpa using h5
    rw [hstep1, hstep2, htr]
    rfl

theorem headingMatch_none_of_head (t : Str) (c : Char) (hc : t.head? = some c)
    (h : c ≠ '#') : headingMatch t = none := by
  rcases t with _ | ⟨a, rest⟩
  · cases hc
  · rw [List.head?_cons, Option.some.injEq] at hc
    subst hc
    unfold headingMatch
    rw [show (a :: rest).takeWhile (fun x => x = '#') = [] from by
      rw [List.takeWhile_cons, if_neg (by simpa using h)]]
    simp

theorem orderedMatch_none_of_head (t : Str) (c : Char) (hc : t.head? = some c)
    (h : c.isDigit = false) : orderedMatch t = none := by
  rcases t with _ | ⟨a, rest⟩
  · cases hc
  · rw [List.head?_cons, Option.some.injEq] at hc
    subst hc
    unfold orderedMatch
    rw [show (a :: rest).takeWhile Char.isDigit = [] from by
      rw [List.takeWhile_cons, if_neg (by rw [h]; simp)]]
    simp

theorem bulletMatchDoc_none_of_head2 (a b : Char) (rest : Str) (h : isWS b = false) :
    bulletMatchDoc (a :: b :: rest) = none := by
  show (if ((a = '-' || a = '*' || a = '•') && isWS b) = true then
      some (rest.dropWhile isWS) else none) = none
  rw [if_neg]
  rw [h]
  simp

theorem takeWhile_append_stop (p : Char → Bool) (A : Str) (hA : ∀ c ∈ A, p c = true)
    (b : Char) (hb : p b = false) (rest : Str) :
    (A ++ b :: rest).takeWhile p = A := by
  induction A with
  | nil => rw [List.nil_append, List.takeWhile_cons, if_neg (by rw [hb]; simp)]
  | cons x A2 ih =>
    rw [List.cons_append, List.takeWhile_cons, if_pos (hA x (List.mem_cons_self _ _))]
    rw [ih (fun c hc => hA c (List.mem_cons_of_mem x hc))]

theorem natStrGo_digits (fuel : Nat) :
    ∀ (n : Nat) (acc : Str), (∀ c ∈ acc, c.isDigit = true) →
      ∀ c ∈ natStrGo fuel n acc, c.isDigit = true := by
  induction fuel with
  | zero => intro n acc hacc c hc; exact hacc c hc
  | succ f ih =>
    intro n acc hacc c hc
    rw [natStrGo] at hc
    by_cases hn : n = 0
    · rw [if_pos hn] at hc
      exact hacc c hc
    · rw [if_neg hn] at hc
      refine ih (n / 10) _ ?_ c hc
      intro d hd
      rcases List.mem_cons.mp hd with h2 | h2
      · subst h2
        have hlt : n % 10 < 10 := Nat.mod_lt n (by omega)
        interval_cases h : (n % 10) <;> decide
      · exact hacc d h2

theorem natStrGo_ne_nil (fuel : Nat) (n : Nat) (acc : Str)
    (h : n ≠ 0 ∨ acc ≠ []) (hfuel : 1 ≤ fuel) : natStrGo fuel n acc ≠ [] := by
  induction fuel generalizing n acc with
  | zero => omega
  | succ f ih =>
    rw [natStrGo]
    by_cases hn : n = 0
    · rw [if_pos hn]
      rcases h with h | h
      · exact absurd hn h
      · exact h
    · rw [if_neg hn]
      rcases f with _ | f2
      · rw [natStrGo]
        simp
      · exact ih (n / 10) _ (Or.inr (by simp)) (by omega)

theorem natStr_digits (n : Nat) :
    natStr n ≠ [] ∧ ∀ c ∈ natStr n, c.isDigit = true := by
  unfold natStr
  by_cases hn : n = 0
  · rw [if_pos hn]
    exact ⟨by simp, by intro c hc; rw [List.mem_singleton.mp hc]; decide⟩
  · rw [if_neg hn]
    refine ⟨natStrGo_ne_nil n n [] (Or.inl hn) (by omega), ?_⟩
    exact natStrGo_digits n n [] (by intro c hc; cases hc)

/-- C6: re-parsing the rendered Markdown does not reproduce the blocks in
general: the two paragraph lines `"-"` and `"x"` join into the paragraph
text `"- x"`, which re-parses as a bullet list. -/
theorem createDocumentBlocks_roundtrip_counterexample :
    hlBlocks (createDocumentBlocks (documentBlocksToMarkdown
        (createDocumentBlocks (str "-\nx")))) ≠
      hlBlocks (createDocumentBlocks (str "-\nx")) := by decide

theorem isWS_cases (c : Char) (h : isWS c = true) :
    c = ' ' ∨ c = '\t' ∨ c = '\n' ∨ c = '\r' ∨ c = '\x0b' ∨ c = '\x0c' := by
  simpa [isWS, or_assoc] using h

theorem isDigit_not_ws (c : Char) (h : c.isDigit = true) : isWS c = false := by
  cases hw : isWS c with
  | false => rfl
  | true =>
    rcases isWS_cases c hw with h1 | h1 | h1 | h1 | h1 | h1 <;>
      (subst h1; exact absurd h (by decide))

theorem digit_not_marker (c : Char) (h : c.isDigit = true) :
    (c = '-' || c = '*' || c = '•') = false := by
  have h1 : c ≠ '-' := fun he => by subst he; exact absurd h (by decide)
  have h2 : c ≠ '*' := fun he => by subst he; exact absurd h (by decide)
  have h3 : c ≠ '•' := fun he => by subst he; exact absurd h (by decide)
  simp [h1, h2, h3]

theorem digit_ne_hash (c : Char) (h : c.isDigit = true) : c ≠ '#' :=
  fun he => by subst he; exact absurd h (by decide)

theorem digit_ne_nl (c : Char) (h : c.isDigit = true) : c ≠ '\n' :=
  fun he => by subst he; exact absurd h (by decide)

theorem hasTriple_tail (c : Char) (t : Str) (h : hasTriple (c :: t) = false) :
    hasTriple t = false := by
  cases htt : hasTriple t with
  | false => rfl
  | true => rw [hasTriple_cons_true c t htt] at h; cases h

theorem hasTriple_no_nl (s : Str) (h : '\n' ∉ s) : hasTriple s = false := by
  induction s with
  | nil => rfl
  | cons c t ih =>
    have hc : ¬(c = '\n' ∧ ∃ t2, t = '\n' :: '\n' :: t2) := by
      rintro ⟨hc, -⟩
      exact h (by rw [hc]; exact List.mem_cons_self _ _)
    rw [hasTriple_cons c t hc]
    exact ih (fun hm => h (List.mem_cons_of_mem c hm))

theorem hasTriple_append_left (a s : Str) (ha : '\n' ∉ a) :
    hasTriple (a ++ s) = hasTriple s := by
  induction a with
  | nil => rfl
  | cons c t ih =>
    rw [List.cons_append]
    rw [hasTriple_cons c (t ++ s) (by
      rintro ⟨hc, -⟩
      exact ha (by rw [hc]; exact List.mem_cons_self _ _))]
    exact ih (fun hm => ha (List.mem_cons_of_mem c hm))

theorem collapseGo_id (fuel : Nat) :
    ∀ s : Str, hasTriple s = false → collapseGo fuel s = s := by
  induction fuel with
  | zero => intro s h; rfl
  | succ f ih =>
    intro s h
    rcases s with _ | ⟨c, t⟩
    · exact collapseGo_nil _
    · have hcond : ¬(c = '\n' ∧ ∃ t2, t = '\n' :: '\n' :: t2) := by
        rintro ⟨hc, t2, ht⟩
        subst hc; subst ht
        exact Bool.noConfusion (show (true : Bool) = false from h)
      rw [collapseGo_succ_cons f c t hcond, ih t (hasTriple_tail c t h)]

theorem collapseNewlines_id (s : Str) (h : hasTriple s = false) :
    collapseNewlines s = s := collapseGo_id s.length s h

theorem intercalate_head_cons (sep : Str) (y : Char) (ys : Str) (ps : List Str) :
    ∃ zs, List.intercalate sep ((y :: ys) :: ps) = y :: zs := by
  rcases ps with _ | ⟨q, qs⟩
  · exact ⟨ys, by simp [List.intercalate, List.intersperse]⟩
  · refine ⟨ys ++ sep ++ List.intercalate sep (q :: qs), ?_⟩
    rw [intercalate_cons2 sep _ (q :: qs) (by simp)]
    simp

theorem hasTriple_intercalate (L : List Str) (h1 : ∀ l ∈ L, '\n' ∉ l)
    (h2 : List.Chain' (fun a b => a ≠ [] ∨ b ≠ []) L) :
    hasTriple (List.intercalate ['\n'] L) = false := by
  induction L with
  | nil => rfl
  | cons a R ih =>
    rcases R with _ | ⟨b, R2⟩
    · rw [show List.intercalate ['\n'] [a] = a from by simp [List.intercalate, List.intersperse]]
      exact hasTriple_no_nl a (h1 a (by simp))
    · rw [intercalate_cons2 ['\n'] a (b :: R2) (by simp), List.append_assoc]
      rw [hasTriple_append_left a _ (h1 a (by simp))]
      have hX : hasTriple (List.intercalate ['\n'] (b :: R2)) = false := by
        refine ih (fun l hl => h1 l (List.mem_cons_of_mem a hl)) ?_
        exact (List.chain'_cons'.mp h2).2
      have hcond : ¬('\n' = '\n' ∧
          ∃ t2, List.intercalate ['\n'] (b :: R2) = '\n' :: '\n' :: t2) := by
        rintro ⟨-, t2, ht⟩
        rcases b with _ | ⟨y, ys⟩
        · rcases R2 with _ | ⟨c, R3⟩
          · rw [show List.intercalate ['\n'] [([] : Str)] = [] from by
              simp [List.intercalate, List.intersperse]] at ht
            cases ht
          · have hcne : c ≠ [] := by
              have hch := (List.chain'_cons'.mp h2).2
              have := (List.chain'_cons'.mp hch).1 c (by simp)
              rcases this with h3 | h3
              · exact absurd rfl h3
              · exact h3
            rcases c with _ | ⟨y, ys⟩
            · exact absurd rfl hcne
            · rcases intercalate_head_cons ['\n'] y ys R3 with ⟨zs, hz⟩
              rw [intercalate_cons2 ['\n'] [] ((y :: ys) :: R3) (by simp)] at ht
              rw [hz] at ht
              simp only [List.nil_append, List.singleton_append, List.cons.injEq] at ht
              have hy : y ≠ '\n' := fun he =>
                h1 (y :: ys) (by simp) (by rw [he]; exact List.mem_cons_self _ _)
              exact hy ht.2.1
        · rcases intercalate_head_cons ['\n'] y ys R2 with ⟨zs, hz⟩
          rw [hz] at ht
          rw [List.cons.injEq] at ht
          have hy : y ≠ '\n' :=
            fun he => h1 (y :: ys) (by simp) (by rw [he]; exact List.mem_cons_self _ _)
          exact hy ht.1
      rw [show (['\n'] ++ List.intercalate ['\n'] (b :: R2) : Str) =
        '\n' :: List.intercalate ['\n'] (b :: R2) from rfl]
      rw [hasTriple_cons _ _ hcond]
      exact hX

theorem headingMatch_sfx {t : Str} {n : Nat} {txt : Str}
    (h : headingMatch t = some (n, txt)) : txt <:+ t := by
  simp only [headingMatch] at h
  split at h
  · rcases hd : t.drop (t.takeWhile (fun c => c = '#')).length with _ | ⟨c, rest⟩
    · rw [hd] at h; cases h
    · rw [hd] at h
      replace h : (if isWS c = true then
          some ((List.takeWhile (fun c => c = '#') t).length, List.dropWhile isWS rest)
        else none) = some (n, txt) := h
      by_cases hws : isWS c = true
      · rw [if_pos hws] at h
        cases h
        have h1 : List.dropWhile isWS rest <:+ rest := List.dropWhile_suffix isWS
        have h2 : rest <:+ c :: rest := ⟨[c], rfl⟩
        have h3 : (c :: rest) <:+ t := by rw [← hd]; exact List.drop_suffix _ t
        exact h1.trans (h2.trans h3)
      · rw [if_neg hws] at h
        cases h
  · cases h

theorem bulletMatchDoc_sfx {t : Str} {item : Str}
    (h : bulletMatchDoc t = some item) : item <:+ t := by
  unfold bulletMatchDoc at h
  split at h
  · rename_i c d rest
    split at h
    · cases h
      have h1 : List.dropWhile isWS rest <:+ rest := List.dropWhile_suffix isWS
      exact h1.trans ⟨[c, d], rfl⟩
    · cases h
  · cases h

theorem orderedMatch_sfx {t : Str} {item : Str}
    (h : orderedMatch t = some item) : item <:+ t := by
  simp only [orderedMatch] at h
  split at h
  · cases h
  · rcases hd : t.drop (t.takeWhile Char.isDigit).length with _ | ⟨p, rest0⟩
    · rw [hd] at h; cases h
    · rcases rest0 with _ | ⟨c, rest⟩
      · rw [hd] at h; cases h
      · rw [hd] at h
        replace h : (if ((p = '.' || p = ')') && isWS c) = true then
            some (List.dropWhile isWS rest)
          else none) = some item := h
        by_cases hcond : ((p = '.' || p = ')') && isWS c) = true
        · rw [if_pos hcond] at h
          cases h
          have h1 : List.dropWhile isWS rest <:+ rest := List.dropWhile_suffix isWS
          have h2 : rest <:+ p :: c :: rest := ⟨[p, c], rfl⟩
          have h3 : (p :: c :: rest) <:+ t := by rw [← hd]; exact List.drop_suffix _ t
          exact h1.trans (h2.trans h3)
        · rw [if_neg hcond] at h
          cases h

theorem colonMatch_parts {t : Str} {lab txt : Str}
    (h : colonMatch t = some (lab, txt)) : lab <+: t ∧ txt <:+ t := by
  simp only [colonMatch] at h
  split at h
  · rw [Option.some.injEq, Prod.mk.injEq] at h
    constructor
    · rw [← h.1]
      exact List.takeWhile_prefix _
    · rw [← h.2]
      have h1 : List.dropWhile isWS (t.drop ((t.takeWhile
          (fun c => decide (c ≠ ':' ∧ c ≠ '：'))).length + 1)) <:+
          t.drop ((t.takeWhile (fun c => decide (c ≠ ':' ∧ c ≠ '：'))).length + 1) :=
        List.dropWhile_suffix isWS
      exact h1.trans (List.drop_suffix _ t)
  · cases h

/-- The per-line invariant used by the block round trip. -/
def lineW (l : Str) : Prop := l ≠ [] ∧ trim l = l ∧ '\n' ∉ l ∧ '\r' ∉ l

/-- The scanner-state invariant of `createDocumentBlocks`. -/
def stateW (st : DBState) : Prop :=
  (∀ b ∈ st.blocks, blockW b) ∧ (∀ p ∈ st.para, lineW p) ∧
    ∀ ul items, st.list = some (ul, items) → items ≠ [] ∧ ∀ i ∈ items, lineW i

theorem splitOn1_sublist (c : Char) (s : Str) : ∀ p ∈ splitOn1 c s, p.Sublist s := by
  induction s with
  | nil =>
    intro p hp
    simp only [splitOn1, List.mem_singleton] at hp
    rw [hp]
  | cons x rest ih =>
    intro p hp
    rw [splitOn1] at hp
    by_cases hx : x = c
    · rw [if_pos hx] at hp
      rcases List.mem_cons.mp hp with h1 | h1
      · rw [h1]; exact List.nil_sublist _
      · exact (ih p h1).cons x
    · rw [if_neg hx] at hp
      rcases hs : splitOn1 c rest with _ | ⟨s0, ss⟩
      · exact absurd hs (splitOn1_ne_nil c rest)
      · rw [hs] at hp
        rcases List.mem_cons.mp hp with h1 | h1
        · rw [h1]
          exact (ih s0 (by rw [hs]; exact List.mem_cons_self _ _)).cons₂ x
        · exact ((ih p (by rw [hs]; exact List.mem_cons_of_mem s0 h1)).cons x)

theorem intercalate_concat (sep q : Str) (qs : List Str) (h : qs ≠ []) :
    List.intercalate sep (qs ++ [q]) = List.intercalate sep qs ++ sep ++ q := by
  induction qs with
  | nil => cases h rfl
  | cons a as ih =>
    rcases as with _ | ⟨b, bs⟩
    · simp [List.intercalate, List.intersperse]
    · rw [List.cons_append, intercalate_cons2 sep a ((b :: bs) ++ [q]) (by simp)]
      rw [intercalate_cons2 sep a (b :: bs) (by simp)]
      rw [ih (by simp)]
      simp [List.append_assoc]

theorem lineW_intercalate (ps : List Str) (hne : ps ≠ []) (h : ∀ p ∈ ps, lineW p) :
    lineW (List.intercalate [' '] ps) := by
  rcases ps with _ | ⟨p, ps2⟩
  · cases hne rfl
  · have hp := h p (List.mem_cons_self _ _)
    rcases hhd : p with _ | ⟨y, ys⟩
    · exact absurd hhd hp.1
    · subst hhd
      rcases intercalate_head_cons [' '] y ys ps2 with ⟨zs, hz⟩
      have hy : isWS y = false := by
        have := (trim_fixed_split hp.2.1).1
        rw [trimL_eq_self_iff] at this
        exact this y rfl
      rcases List.eq_nil_or_concat ((y :: ys) :: ps2) with hq | ⟨qs, q, hq⟩
      · cases hq
      · rw [List.concat_eq_append] at hq
        have hqmem : q ∈ (y :: ys) :: ps2 := by rw [hq]; simp
        have hqW := h q hqmem
        have hlast : (List.intercalate [' '] ((y :: ys) :: ps2)).getLast? = q.getLast? := by
          rw [hq]
          rcases qs with _ | ⟨r, rs⟩
          · rw [show List.intercalate [' '] ([] ++ [q]) = q from by
              simp [List.intercalate, List.intersperse]]
          · rw [intercalate_concat [' '] q (r :: rs) (by simp)]
            rw [List.append_assoc]
            rw [List.getLast?_append_of_ne_nil _ (by
              intro hc
              rcases List.append_eq_nil.mp hc with ⟨-, h2⟩
              exact hqW.1 h2)]
            exact List.getLast?_append_of_ne_nil _ hqW.1
        refine ⟨by rw [hz]; simp, ?_, ?_, ?_⟩
        · refine trim_fixed_of_split ?_ ?_
          · rw [trimL_eq_self_iff]
            intro c hc
            rw [hz, List.head?_cons, Option.some.injEq] at hc
            rw [← hc]
            exact hy
          · rw [trimR_eq_self_iff]
            intro c hc
            rw [hlast] at hc
            have := (trim_fixed_split hqW.2.1).2
            rw [trimR_eq_self_iff] at this
            exact this c hc
        · refine not_mem_intercalate [' '] ((y :: ys) :: ps2) (by decide) ?_
          intro r hr
          exact (h r hr).2.2.1
        · refine not_mem_intercalate [' '] ((y :: ys) :: ps2) (by decide) ?_
          intro r hr
          exact (h r hr).2.2.2

theorem flushP_nilp (bs : List DocumentBlock) (l : Option (Bool × List Str)) :
    flushP ⟨bs, [], l⟩ = ⟨bs, [], l⟩ := by
  simp [flushP]

theorem flushP_para (bs : List DocumentBlock) (ps : List Str)
    (l : Option (Bool × List Str)) (h : ps ≠ []) :
    flushP ⟨bs, ps, l⟩ =
      ⟨bs ++ [.paragraph none (List.intercalate [' '] ps)], [], l⟩ := by
  simp [flushP, h]

theorem flushL_none (bs : List DocumentBlock) (ps : List Str) :
    flushL ⟨bs, ps, none⟩ = ⟨bs, ps, none⟩ := rfl

theorem flushL_ul (bs : List DocumentBlock) (ps : List Str) (items : List Str) :
    flushL ⟨bs, ps, some (true, items)⟩ = ⟨bs ++ [.ulist items], ps, none⟩ := rfl

theorem flushL_ol (bs : List DocumentBlock) (ps : List Str) (items : List Str) :
    flushL ⟨bs, ps, some (false, items)⟩ = ⟨bs ++ [.olist items], ps, none⟩ := rfl

theorem dbStep_blank (st : DBState) (line : Str) (h : trim line = []) :
    dbStep st line = flushL (flushP st) := by
  simp only [dbStep]
  rw [h]
  rfl

theorem dbStep_heading (st : DBState) (line : Str) (n : Nat) (txt : Str)
    (h0 : trim line ≠ []) (h : headingMatch (trim line) = some (n, txt)) :
    dbStep st line = { flushL (flushP st) with
      blocks := (flushL (flushP st)).blocks ++ [.heading n txt] } := by
  simp only [dbStep]
  rw [if_neg h0, h]

theorem dbStep_bullet_cont (st : DBState) (line : Str) (item : Str) (acc : List Str)
    (h0 : trim line ≠ []) (h1 : headingMatch (trim line) = none)
    (h : bulletMatchDoc (trim line) = some item)
    (hl : (flushP st).list = some (true, acc)) :
    dbStep st line = { flushP st with list := some (true, acc ++ [item]) } := by
  simp only [dbStep]
  rw [if_neg h0, h1, h, hl]

theorem dbStep_bullet_new (st : DBState) (line : Str) (item : Str)
    (h0 : trim line ≠ []) (h1 : headingMatch (trim line) = none)
    (h : bulletMatchDoc (trim line) = some item)
    (hl : (flushP st).list = none) :
    dbStep st line = { flushL (flushP st) with list := some (true, [item]) } := by
  simp only [dbStep]
  rw [if_neg h0, h1, h, hl]

theorem dbStep_bullet_switch (st : DBState) (line : Str) (item : Str) (acc : List Str)
    (h0 : trim line ≠ []) (h1 : headingMatch (trim line) = none)
    (h : bulletMatchDoc (trim line) = some item)
    (hl : (flushP st).list = some (false, acc)) :
    dbStep st line = { flushL (flushP st) with list := some (true, [item]) } := by
  simp only [dbStep]
  rw [if_neg h0, h1, h, hl]

theorem dbStep_ordered_cont (st : DBState) (line : Str) (item : Str) (acc : List Str)
    (h0 : trim line ≠ []) (h1 : headingMatch (trim line) = none)
    (h2 : bulletMatchDoc (trim line) = none)
    (h : orderedMatch (trim line) = some item)
    (hl : (flushP st).list = some (false, acc)) :
    dbStep st line = { flushP st with list := some (false, acc ++ [item]) } := by
  simp only [dbStep]
  rw [if_neg h0, h1, h2, h, hl]

theorem dbStep_ordered_new (st : DBState) (line : Str) (item : Str)
    (h0 : trim line ≠ []) (h1 : headingMatch (trim line) = none)
    (h2 : bulletMatchDoc (trim line) = none)
    (h : orderedMatch (trim line) = some item)
    (hl : (flushP st).list = none) :
    dbStep st line = { flushL (flushP st) with list := some (false, [item]) } := by
  simp only [dbStep]
  rw [if_neg h0, h1, h2, h, hl]

theorem dbStep_ordered_switch (st : DBState) (line : Str) (item : Str) (acc : List Str)
    (h0 : trim line ≠ []) (h1 : headingMatch (trim line) = none)
    (h2 : bulletMatchDoc (trim line) = none)
    (h : orderedMatch (trim line) = some item)
    (hl : (flushP st).list = some (true, acc)) :
    dbStep st line = { flushL (flushP st) with list := some (false, [item]) } := by
  simp only [dbStep]
  rw [if_neg h0, h1, h2, h, hl]

theorem dbStep_colon (st : DBState) (line : Str) (lab txt : Str)
    (h0 : trim line ≠ []) (h1 : headingMatch (trim line) = none)
    (h2 : bulletMatchDoc (trim line) = none)
    (h3 : orderedMatch (trim line) = none)
    (h : colonMatch (trim line) = some (lab, txt)) :
    dbStep st line = { flushL (flushP st) with
      blocks := (flushL (flushP st)).blocks ++ [.paragraph (some lab) txt] } := by
  simp only [dbStep]
  rw [if_neg h0, h1, h2, h3, h]

theorem dbStep_plain (st : DBState) (line : Str)
    (h0 : trim line ≠ []) (h1 : headingMatch (trim line) = none)
    (h2 : bulletMatchDoc (trim line) = none)
    (h3 : orderedMatch (trim line) = none)
    (h4 : colonMatch (trim line) = none) :
    dbStep st line = { st with para := st.para ++ [trim line] } := by
  simp only [dbStep]
  rw [if_neg h0, h1, h2, h3, h4]

theorem flushP_W {st : DBState} (h : stateW st) : stateW (flushP st) := by
  rcases st with ⟨bs, ps, l⟩
  by_cases hp : ps = []
  · subst hp
    rw [flushP_nilp]
    exact h
  · rw [flushP_para bs ps l hp]
    obtain ⟨hb, hpara, hlist⟩ := h
    refine ⟨?_, ?_, ?_⟩
    · intro b hbmem
      rcases List.mem_append.mp hbmem with h1 | h1
      · exact hb b h1
      · rw [List.mem_singleton.mp h1]
        exact lineW_intercalate ps hp (fun p hpm => hpara p hpm)
    · intro p hpm
      cases hpm
    · intro ul items hli
      exact hlist ul items hli

theorem flushL_W {st : DBState} (h : stateW st) : stateW (flushL st) := by
  rcases st with ⟨bs, ps, l⟩
  rcases l with _ | ⟨ul, items⟩
  · rw [flushL_none]
    exact h
  · obtain ⟨hb, hpara, hlist⟩ := h
    have hit := hlist ul items rfl
    cases ul with
    | true =>
      rw [flushL_ul]
      refine ⟨?_, hpara, ?_⟩
      · intro b hbmem
        rcases List.mem_append.mp hbmem with h1 | h1
        · exact hb b h1
        · rw [List.mem_singleton.mp h1]
          exact hit
      · intro ul2 items2 hli
        cases hli
    | false =>
      rw [flushL_ol]
      refine ⟨?_, hpara, ?_⟩
      · intro b hbmem
        rcases List.mem_append.mp hbmem with h1 | h1
        · exact hb b h1
        · rw [List.mem_singleton.mp h1]
          exact hit
      · intro ul2 items2 hli
        cases hli

theorem dbStep_W (st : DBState) (line : Str) (hW : stateW st)
    (hnl : '\n' ∉ line) (hcr : '\r' ∉ line) : stateW (dbStep st line) := by
  have htt : trim (trim line) = trim line := trim_trim line
  have htnl : '\n' ∉ trim line := fun hm => hnl (mem_of_mem_trim hm)
  have htcr : '\r' ∉ trim line := fun hm => hcr (mem_of_mem_trim hm)
  by_cases h0 : trim line = []
  · rw [dbStep_blank st line h0]
    exact flushL_W (flushP_W hW)
  · cases hh : headingMatch (trim line) with
    | some nt =>
      rcases nt with ⟨n, txt⟩
      rw [dbStep_heading st line n txt h0 hh]
      have hst1 := flushL_W (flushP_W hW)
      have hgood := headingMatch_good htt hh
      have hsfx := headingMatch_sfx hh
      refine ⟨?_, hst1.2.1, ?_⟩
      · intro b hbmem
        rcases List.mem_append.mp hbmem with h1 | h1
        · exact hst1.1 b h1
        · rw [List.mem_singleton.mp h1]
          exact ⟨hgood.2.2.1, hgood.2.2.2, hgood.1, hgood.2.1,
            fun hm => htnl (hsfx.sublist.mem hm), fun hm => htcr (hsfx.sublist.mem hm)⟩
      · intro ul items hli
        exact hst1.2.2 ul items hli
    | none =>
      cases hb : bulletMatchDoc (trim line) with
      | some item =>
        have hst1 := flushP_W hW
        have hgood := bulletMatchDoc_good htt hb
        have hsfx := bulletMatchDoc_sfx hb
        have hitem : lineW item := ⟨hgood.1, hgood.2,
          fun hm => htnl (hsfx.sublist.mem hm), fun hm => htcr (hsfx.sublist.mem hm)⟩
        rcases hli : (flushP st).list with _ | ⟨ul, acc⟩
        · rw [dbStep_bullet_new st line item h0 hh hb hli]
          have hst2 := flushL_W hst1
          refine ⟨hst2.1, hst2.2.1, ?_⟩
          intro ul2 items2 hsome
          rw [Option.some.injEq, Prod.mk.injEq] at hsome
          rw [← hsome.2]
          exact ⟨by simp, by intro i hi; rw [List.mem_singleton.mp hi]; exact hitem⟩
        · cases ul with
          | false =>
            rw [dbStep_bullet_switch st line item acc h0 hh hb hli]
            have hst2 := flushL_W hst1
            refine ⟨hst2.1, hst2.2.1, ?_⟩
            intro ul2 items2 hsome
            rw [Option.some.injEq, Prod.mk.injEq] at hsome
            rw [← hsome.2]
            exact ⟨by simp, by intro i hi; rw [List.mem_singleton.mp hi]; exact hitem⟩
          | true =>
            rw [dbStep_bullet_cont st line item acc h0 hh hb hli]
            have hacc := hst1.2.2 true acc hli
            refine ⟨hst1.1, hst1.2.1, ?_⟩
            intro ul2 items2 hsome
            rw [Option.some.injEq, Prod.mk.injEq] at hsome
            rw [← hsome.2]
            refine ⟨by simp, ?_⟩
            intro i hi
            rcases List.mem_append.mp hi with h1 | h1
            · exact hacc.2 i h1
            · rw [List.mem_singleton.mp h1]
              exact hitem
      | none =>
        cases ho : orderedMatch (trim line) with
        | some item =>
          have hst1 := flushP_W hW
          have hgood := orderedMatch_good htt ho
          have hsfx := orderedMatch_sfx ho
          have hitem : lineW item := ⟨hgood.1, hgood.2,
            fun hm => htnl (hsfx.sublist.mem hm), fun hm => htcr (hsfx.sublist.mem hm)⟩
          rcases hli : (flushP st).list with _ | ⟨ul, acc⟩
          · rw [dbStep_ordered_new st line item h0 hh hb ho hli]
            have hst2 := flushL_W hst1
            refine ⟨hst2.1, hst2.2.1, ?_⟩
            intro ul2 items2 hsome
            rw [Option.some.injEq, Prod.mk.injEq] at hsome
            rw [← hsome.2]
            exact ⟨by simp, by intro i hi; rw [List.mem_singleton.mp hi]; exact hitem⟩
          · cases ul with
            | true =>
              rw [dbStep_ordered_switch st line item acc h0 hh hb ho hli]
              have hst2 := flushL_W hst1
              refine ⟨hst2.1, hst2.2.1, ?_⟩
              intro ul2 items2 hsome
              rw [Option.some.injEq, Prod.mk.injEq] at hsome
              rw [← hsome.2]
              exact ⟨by simp, by intro i hi; rw [List.mem_singleton.mp hi]; exact hitem⟩
            | false =>
              rw [dbStep_ordered_cont st line item acc h0 hh hb ho hli]
              have hacc := hst1.2.2 false acc hli
              refine ⟨hst1.1, hst1.2.1, ?_⟩
              intro ul2 items2 hsome
              rw [Option.some.injEq, Prod.mk.injEq] at hsome
              rw [← hsome.2]
              refine ⟨by simp, ?_⟩
              intro i hi
              rcases List.mem_append.mp hi with h1 | h1
              · exact hacc.2 i h1
              · rw [List.mem_singleton.mp h1]
                exact hitem
        | none =>
          cases hc : colonMatch (trim line) with
          | some labtxt =>
            rcases labtxt with ⟨lab, txt⟩
            rw [dbStep_colon st line lab txt h0 hh hb ho hc]
            have hst1 := flushL_W (flushP_W hW)
            have hparts := colonMatch_parts hc
            refine ⟨?_, hst1.2.1, ?_⟩
            · intro b hbmem
              rcases List.mem_append.mp hbmem with h1 | h1
              · exact hst1.1 b h1
              · rw [List.mem_singleton.mp h1]
                exact ⟨fun hm => htnl (hparts.1.sublist.mem hm),
                  fun hm => htcr (hparts.1.sublist.mem hm),
                  fun hm => htnl (hparts.2.sublist.mem hm),
                  fun hm => htcr (hparts.2.sublist.mem hm)⟩
            · intro ul items hli
              exact hst1.2.2 ul items hli
          | none =>
            rw [dbStep_plain st line h0 hh hb ho hc]
            refine ⟨hW.1, ?_, ?_⟩
            · intro p hpm
              rcases List.mem_append.mp hpm with h1 | h1
              · exact hW.2.1 p h1
              · rw [List.mem_singleton.mp h1]
                exact ⟨h0, htt, htnl, htcr⟩
            · intro ul items hli
              exact hW.2.2 ul items hli

theorem foldl_dbStep_W (lines : List Str) : ∀ st : DBState, stateW st →
    (∀ l ∈ lines, '\n' ∉ l ∧ '\r' ∉ l) → stateW (List.foldl dbStep st lines) := by
  induction lines with
  | nil => intro st h _; exact h
  | cons a rest ih =>
    intro st h hl
    rw [List.foldl_cons]
    refine ih _ (dbStep_W st a h (hl a (by simp)).1 (hl a (by simp)).2) ?_
    intro l hlm
    exact hl l (List.mem_cons_of_mem a hlm)

theorem not_mem_removeCR (s : Str) : '\r' ∉ removeCR s := by
  intro h
  rw [removeCR, List.mem_filter] at h
  simp at h

theorem cdb_W (input : Str) : ∀ b ∈ createDocumentBlocks input, blockW b := by
  have h0 : stateW ⟨[], [], none⟩ := by
    refine ⟨?_, ?_, ?_⟩
    · intro b hb; cases hb
    · intro p hp; cases hp
    · intro ul items h2; cases h2
  have hlines : ∀ l ∈ splitOn1 '\n' (removeCR input), '\n' ∉ l ∧ '\r' ∉ l := by
    intro l hl
    refine ⟨splitOn1_not_mem_sep '\n' _ l hl, ?_⟩
    intro hr
    exact not_mem_removeCR input ((splitOn1_sublist '\n' (removeCR input) l hl).mem hr)
  have := flushL_W (flushP_W (foldl_dbStep_W _ _ h0 hlines))
  exact this.1

theorem bulletMatchDoc_none_of_head1 (a b : Char) (rest : Str)
    (h : (a = '-' || a = '*' || a = '•') = false) :
    bulletMatchDoc (a :: b :: rest) = none := by
  show (if ((a = '-' || a = '*' || a = '•') && isWS b) = true then
      some (rest.dropWhile isWS) else none) = none
  rw [h]
  simp

theorem heading_line_rematch (n : Nat) (t : Str) (h1 : 1 ≤ n) (h2 : n ≤ 6)
    (h3 : t ≠ []) (h4 : trim t = t) :
    trim (List.replicate n '#' ++ ' ' :: t) = List.replicate n '#' ++ ' ' :: t ∧
      headingMatch (List.replicate n '#' ++ ' ' :: t) = some (n, t) := by
  have htw : (List.replicate n '#' ++ ' ' :: t).takeWhile (fun c => c = '#') =
      List.replicate n '#' := by
    refine takeWhile_append_stop _ _ ?_ ' ' (by decide) t
    intro c hc
    rw [(List.mem_replicate.mp hc).2]
    decide
  have hdrop : (List.replicate n '#' ++ ' ' :: t).drop n = ' ' :: t :=
    List.drop_left' (List.length_replicate n '#')
  have hdw : t.dropWhile isWS = t := (trim_fixed_split h4).1
  constructor
  · refine trim_fixed_of_split ?_ ?_
    · rw [trimL_eq_self_iff]
      intro c hc
      rcases n with _ | m
      · omega
      · rw [List.replicate_succ, List.cons_append, List.head?_cons,
          Option.some.injEq] at hc
        rw [← hc]
        decide
    · rw [trimR_eq_self_iff]
      intro c hc
      rw [show (List.replicate n '#' ++ ' ' :: t : Str) =
        (List.replicate n '#' ++ [' ']) ++ t from by simp] at hc
      rw [List.getLast?_append_of_ne_nil _ h3] at hc
      have := (trim_fixed_split h4).2
      rw [trimR_eq_self_iff] at this
      exact this c hc
  · simp only [headingMatch]
    rw [htw, List.length_replicate]
    rw [if_pos ⟨h1, h2⟩]
    rw [hdrop]
    show (if isWS ' ' = true then some (n, t.dropWhile isWS) else none) = some (n, t)
    rw [if_pos (by decide), hdw]

theorem bullet_line_rematch (i : Str) (h : lineW i) :
    trim ('-' :: ' ' :: i) = '-' :: ' ' :: i ∧
      headingMatch ('-' :: ' ' :: i) = none ∧
      bulletMatchDoc ('-' :: ' ' :: i) = some i := by
  have hdw : i.dropWhile isWS = i := (trim_fixed_split h.2.1).1
  refine ⟨?_, ?_, ?_⟩
  · refine trim_fixed_of_split ?_ ?_
    · rw [trimL_eq_self_iff]
      intro c hc
      rw [List.head?_cons, Option.some.injEq] at hc
      rw [← hc]
      decide
    · rw [trimR_eq_self_iff]
      intro c hc
      rw [show ('-' :: ' ' :: i : Str) = ['-', ' '] ++ i from rfl] at hc
      rw [List.getLast?_append_of_ne_nil _ h.1] at hc
      have := (trim_fixed_split h.2.1).2
      rw [trimR_eq_self_iff] at this
      exact this c hc
  · exact headingMatch_none_of_head _ '-' rfl (by decide)
  · show (if (('-' = '-' || '-' = '*' || '-' = '•') && isWS ' ') = true then
      some (i.dropWhile isWS) else none) = some i
    rw [if_pos (by decide), hdw]

theorem olist_line_rematch (D i : Str) (hD : D ≠ [])
    (hDd : ∀ c ∈ D, c.isDigit = true) (h : lineW i) :
    trim (D ++ '.' :: ' ' :: i) = D ++ '.' :: ' ' :: i ∧
      headingMatch (D ++ '.' :: ' ' :: i) = none ∧
      bulletMatchDoc (D ++ '.' :: ' ' :: i) = none ∧
      orderedMatch (D ++ '.' :: ' ' :: i) = some i := by
  rcases D with _ | ⟨d, D2⟩
  · cases hD rfl
  · have hdd : d.isDigit = true := hDd d (List.mem_cons_self _ _)
    have hdw : i.dropWhile isWS = i := (trim_fixed_split h.2.1).1
    have htw : ((d :: D2) ++ '.' :: ' ' :: i).takeWhile Char.isDigit = d :: D2 := by
      refine takeWhile_append_stop _ _ hDd '.' (by decide) _
    have hdrop : ((d :: D2) ++ '.' :: ' ' :: i).drop (d :: D2).length = '.' :: ' ' :: i :=
      List.drop_left _ _
    refine ⟨?_, ?_, ?_, ?_⟩
    · refine trim_fixed_of_split ?_ ?_
      · rw [trimL_eq_self_iff]
        intro c hc
        rw [List.cons_append, List.head?_cons, Option.some.injEq] at hc
        rw [← hc]
        exact isDigit_not_ws d hdd
      · rw [trimR_eq_self_iff]
        intro c hc
        rw [show ((d :: D2) ++ '.' :: ' ' :: i : Str) =
          ((d :: D2) ++ ['.', ' ']) ++ i from by simp] at hc
        rw [List.getLast?_append_of_ne_nil _ h.1] at hc
        have := (trim_fixed_split h.2.1).2
        rw [trimR_eq_self_iff] at this
        exact this c hc
    · exact headingMatch_none_of_head _ d rfl (digit_ne_hash d hdd)
    · rcases hsh : D2 ++ '.' :: ' ' :: i with _ | ⟨d2, rest⟩
      · cases List.append_eq_nil.mp hsh |>.2
      · rw [List.cons_append, hsh]
        exact bulletMatchDoc_none_of_head1 d d2 rest (digit_not_marker d hdd)
    · simp only [orderedMatch]
      rw [htw]
      rw [if_neg (by simp)]
      rw [hdrop]
      show (if (('.' = '.' || '.' = ')') && isWS ' ') = true then
        some (i.dropWhile isWS) else none) = some i
      rw [if_pos (by decide), hdw]

theorem labeled_line_shape (lab t : Str) :
    trim ('*' :: '*' :: (lab ++ str ":** " ++ t)) =
      '*' :: '*' :: trimR (lab ++ str ":** " ++ t) := by
  have h1 : trimL ('*' :: '*' :: (lab ++ str ":** " ++ t)) =
      '*' :: '*' :: (lab ++ str ":** " ++ t) := by
    rw [trimL, List.dropWhile_cons, if_neg (by decide)]
  rw [trim, h1]
  rw [trimR_cons '*' _ (by decide), trimR_cons '*' _ (by decide)]

theorem ulist_fold_go (bs : List DocumentBlock) (items : List Str) :
    ∀ acc : List Str, (∀ i ∈ items, lineW i) →
      List.foldl dbStep ⟨bs, [], some (true, acc)⟩
        (items.map (fun i => '-' :: ' ' :: i)) =
      ⟨bs, [], some (true, acc ++ items)⟩ := by
  induction items with
  | nil => intro acc h; simp
  | cons i is ih =>
    intro acc h
    rw [List.map_cons, List.foldl_cons]
    have hre := bullet_line_rematch i (h i (List.mem_cons_self _ _))
    have h0 : trim ('-' :: ' ' :: i) ≠ [] := by rw [hre.1]; simp
    have h1 : headingMatch (trim ('-' :: ' ' :: i)) = none := by
      rw [hre.1]; exact hre.2.1
    have h2 : bulletMatchDoc (trim ('-' :: ' ' :: i)) = some i := by
      rw [hre.1]; exact hre.2.2
    have hl : (flushP ⟨bs, [], some (true, acc)⟩).list = some (true, acc) := by
      rw [flushP_nilp]
    rw [dbStep_bullet_cont _ _ i acc h0 h1 h2 hl]
    rw [flushP_nilp]
    show List.foldl dbStep ⟨bs, [], some (true, acc ++ [i])⟩
        (is.map (fun i => '-' :: ' ' :: i)) =
      ⟨bs, [], some (true, acc ++ i :: is)⟩
    rw [List.append_cons acc i is]
    rw [ih (acc ++ [i]) (fun j hj => h j (List.mem_cons_of_mem i hj))]

theorem olist_fold_go (bs : List DocumentBlock) (items : List Str) :
    ∀ (acc : List Str) (g : Nat → Str),
      (∀ k, g k ≠ [] ∧ ∀ c ∈ g k, c.isDigit = true) →
      (∀ i ∈ items, lineW i) →
      List.foldl dbStep ⟨bs, [], some (false, acc)⟩
        (items.mapIdx (fun idx i => g idx ++ '.' :: ' ' :: i)) =
      ⟨bs, [], some (false, acc ++ items)⟩ := by
  induction items with
  | nil => intro acc g hg h; simp
  | cons i is ih =>
    intro acc g hg h
    rw [List.mapIdx_cons, List.foldl_cons]
    have hre := olist_line_rematch (g 0) i (hg 0).1 (hg 0).2 (h i (List.mem_cons_self _ _))
    have h0 : trim (g 0 ++ '.' :: ' ' :: i) ≠ [] := by
      rw [hre.1]
      intro hc
      rcases List.append_eq_nil.mp hc with ⟨-, h2⟩
      cases h2
    have h1 : headingMatch (trim (g 0 ++ '.' :: ' ' :: i)) = none := by
      rw [hre.1]; exact hre.2.1
    have h2 : bulletMatchDoc (trim (g 0 ++ '.' :: ' ' :: i)) = none := by
      rw [hre.1]; exact hre.2.2.1
    have h3 : orderedMatch (trim (g 0 ++ '.' :: ' ' :: i)) = some i := by
      rw [hre.1]; exact hre.2.2.2
    have hl : (flushP ⟨bs, [], some (false, acc)⟩).list = some (false, acc) := by
      rw [flushP_nilp]
    rw [dbStep_ordered_cont _ _ i acc h0 h1 h2 h3 hl]
    rw [flushP_nilp]
    show List.foldl dbStep ⟨bs, [], some (false, acc ++ [i])⟩
        (is.mapIdx (fun idx i2 => g (idx + 1) ++ '.' :: ' ' :: i2)) =
      ⟨bs, [], some (false, acc ++ i :: is)⟩
    have := ih (acc ++ [i]) (fun k => g (k + 1)) (fun k => hg (k + 1))
      (fun j hj => h j (List.mem_cons_of_mem i hj))
    rw [List.append_cons acc i is]
    exact this

theorem dbStep_nil_clean (X : List DocumentBlock) :
    dbStep ⟨X, [], none⟩ ([] : Str) = ⟨X, [], none⟩ := by
  rw [dbStep_blank _ [] rfl, flushP_nilp, flushL_none]

theorem block_fold (b : DocumentBlock) (bs : List DocumentBlock)
    (hW : blockW b) (hS : plainParaSafe b) :
    ∃ C, List.foldl dbStep ⟨bs, [], none⟩ (blockLines b ++ [[]]) =
        ⟨bs ++ C, [], none⟩ ∧ hlBlocks C = hlBlocks [b] := by
  cases b with
  | heading n t =>
    obtain ⟨h1, h2, h3, h4, h5, h6⟩ := hW
    refine ⟨[.heading n t], ?_, rfl⟩
    have hre := heading_line_rematch n t h1 h2 h3 h4
    show List.foldl dbStep ⟨bs, [], none⟩ [List.replicate n '#' ++ ' ' :: t, []] = _
    rw [List.foldl_cons]
    rw [dbStep_heading _ _ n t (by rw [hre.1]; simp) (by rw [hre.1]; exact hre.2)]
    rw [flushP_nilp, flushL_none]
    show List.foldl dbStep ⟨bs ++ [.heading n t], [], none⟩ [[]] = _
    rw [List.foldl_cons, List.foldl_nil, dbStep_nil_clean]
  | paragraph o t =>
    cases o with
    | none =>
      obtain ⟨h3, h4, h5, h6⟩ := hW
      have hS2 : headingMatch t = none ∧ bulletMatchDoc t = none ∧
          orderedMatch t = none := hS
      obtain ⟨hs1, hs2, hs3⟩ := hS2
      cases hc : colonMatch t with
      | some lt =>
        rcases lt with ⟨lab, txt⟩
        refine ⟨[.paragraph (some lab) txt], ?_, rfl⟩
        show List.foldl dbStep ⟨bs, [], none⟩ [t, []] = _
        rw [List.foldl_cons]
        rw [dbStep_colon _ _ lab txt (by rw [h4]; exact h3) (by rw [h4]; exact hs1)
          (by rw [h4]; exact hs2) (by rw [h4]; exact hs3) (by rw [h4]; exact hc)]
        rw [flushP_nilp, flushL_none]
        show List.foldl dbStep ⟨bs ++ [.paragraph (some lab) txt], [], none⟩ [[]] = _
        rw [List.foldl_cons, List.foldl_nil, dbStep_nil_clean]
      | none =>
        refine ⟨[.paragraph none t], ?_, rfl⟩
        show List.foldl dbStep ⟨bs, [], none⟩ [t, []] = _
        rw [List.foldl_cons]
        rw [dbStep_plain _ _ (by rw [h4]; exact h3) (by rw [h4]; exact hs1)
          (by rw [h4]; exact hs2) (by rw [h4]; exact hs3) (by rw [h4]; exact hc)]
        rw [h4]
        show List.foldl dbStep ⟨bs, [t], none⟩ [[]] = _
        rw [List.foldl_cons, List.foldl_nil]
        rw [dbStep_blank _ [] rfl]
        rw [flushP_para bs [t] none (by simp)]
        rw [show List.intercalate [' '] [t] = t from by
          simp [List.intercalate, List.intersperse]]
        rw [flushL_none]
    | some lab =>
      have hsh := labeled_line_shape lab t
      have h0 : trim ('*' :: '*' :: (lab ++ str ":** " ++ t)) ≠ [] := by
        rw [hsh]; simp
      have hh : headingMatch (trim ('*' :: '*' :: (lab ++ str ":** " ++ t))) = none := by
        rw [hsh]; exact headingMatch_none_of_head _ '*' rfl (by decide)
      have hb : bulletMatchDoc (trim ('*' :: '*' :: (lab ++ str ":** " ++ t))) = none := by
        rw [hsh]; exact bulletMatchDoc_none_of_head2 '*' '*' _ (by decide)
      have ho : orderedMatch (trim ('*' :: '*' :: (lab ++ str ":** " ++ t))) = none := by
        rw [hsh]; exact orderedMatch_none_of_head _ '*' rfl (by decide)
      cases hc : colonMatch (trim ('*' :: '*' :: (lab ++ str ":** " ++ t))) with
      | some lt =>
        rcases lt with ⟨l2, t2⟩
        refine ⟨[.paragraph (some l2) t2], ?_, rfl⟩
        show List.foldl dbStep ⟨bs, [], none⟩
          ['*' :: '*' :: (lab ++ str ":** " ++ t), []] = _
        rw [List.foldl_cons]
        rw [dbStep_colon _ _ l2 t2 h0 hh hb ho hc]
        rw [flushP_nilp, flushL_none]
        show List.foldl dbStep ⟨bs ++ [.paragraph (some l2) t2], [], none⟩ [[]] = _
        rw [List.foldl_cons, List.foldl_nil, dbStep_nil_clean]
      | none =>
        refine ⟨[.paragraph none (trim ('*' :: '*' :: (lab ++ str ":** " ++ t)))],
          ?_, rfl⟩
        show List.foldl dbStep ⟨bs, [], none⟩
          ['*' :: '*' :: (lab ++ str ":** " ++ t), []] = _
        rw [List.foldl_cons]
        rw [dbStep_plain _ _ h0 hh hb ho hc]
        show List.foldl dbStep
          ⟨bs, [trim ('*' :: '*' :: (lab ++ str ":** " ++ t))], none⟩ [[]] = _
        rw [List.foldl_cons, List.foldl_nil]
        rw [dbStep_blank _ [] rfl]
        rw [flushP_para bs _ none (by simp)]
        rw [show List.intercalate [' ']
            [trim ('*' :: '*' :: (lab ++ str ":** " ++ t))] =
            trim ('*' :: '*' :: (lab ++ str ":** " ++ t)) from by
          simp [List.intercalate, List.intersperse]]
        rw [flushL_none]
  | ulist items =>
    obtain ⟨h1, h2⟩ := hW
    refine ⟨[.ulist items], ?_, rfl⟩
    rcases items with _ | ⟨i, is⟩
    · cases h1 rfl
    · show List.foldl dbStep ⟨bs, [], none⟩
        ((i :: is).map (fun j => '-' :: ' ' :: j) ++ [[]]) = _
      rw [List.map_cons, List.cons_append, List.foldl_cons]
      have hre := bullet_line_rematch i (h2 i (List.mem_cons_self _ _))
      rw [dbStep_bullet_new _ _ i (by rw [hre.1]; simp) (by rw [hre.1]; exact hre.2.1)
        (by rw [hre.1]; exact hre.2.2) (by rw [flushP_nilp])]
      rw [flushP_nilp, flushL_none]
      show List.foldl dbStep ⟨bs, [], some (true, [i])⟩
        (is.map (fun j => '-' :: ' ' :: j) ++ [[]]) = _
      rw [List.foldl_append]
      rw [ulist_fold_go bs is [i] (fun j hj => h2 j (List.mem_cons_of_mem i hj))]
      show List.foldl dbStep ⟨bs, [], some (true, i :: is)⟩ [[]] = _
      rw [List.foldl_cons, List.foldl_nil, dbStep_blank _ [] rfl, flushP_nilp, flushL_ul]
  | olist items =>
    obtain ⟨h1, h2⟩ := hW
    refine ⟨[.olist items], ?_, rfl⟩
    rcases items with _ | ⟨i, is⟩
    · cases h1 rfl
    · simp only [blockLines, List.mapIdx_cons]
      rw [List.cons_append, List.foldl_cons]
      have hre := olist_line_rematch (natStr (0 + 1)) i (natStr_digits (0 + 1)).1
        (natStr_digits (0 + 1)).2 (h2 i (List.mem_cons_self _ _))
      rw [dbStep_ordered_new _ _ i
        (by rw [hre.1]; intro hq; rcases List.append_eq_nil.mp hq with ⟨-, h9⟩; cases h9)
        (by rw [hre.1]; exact hre.2.1) (by rw [hre.1]; exact hre.2.2.1)
        (by rw [hre.1]; exact hre.2.2.2) (by rw [flushP_nilp])]
      rw [flushP_nilp, flushL_none]
      show List.foldl dbStep ⟨bs, [], some (false, [i])⟩
        (is.mapIdx (fun idx i2 => natStr (idx + 1 + 1) ++ '.' :: ' ' :: i2) ++ [[]]) = _
      rw [List.foldl_append]
      rw [olist_fold_go bs is [i] (fun k => natStr (k + 1 + 1))
        (fun k => natStr_digits (k + 1 + 1)) (fun j hj => h2 j (List.mem_cons_of_mem i hj))]
      show List.foldl dbStep ⟨bs, [], some (false, i :: is)⟩ [[]] = _
      rw [List.foldl_cons, List.foldl_nil, dbStep_blank _ [] rfl, flushP_nilp, flushL_ol]

theorem trimR_getLast (Y : Str) : ∀ c, (trimR Y).getLast? = some c → isWS c = false := by
  intro c hc
  have hne : trimR Y ≠ [] := by
    intro h
    rw [h] at hc
    cases hc
  rw [List.getLast?_eq_getLast _ hne, Option.some.injEq] at hc
  rw [← hc]
  have h5 := List.rdropWhile_last_not isWS Y
    (by rw [show List.rdropWhile isWS Y = trimR Y from (trimR_eq Y).symm]; exact hne)
  simpa using h5

theorem trimR_ne_nil_of_head (s : Str) (c : Char) (hc : s.head? = some c)
    (h : isWS c = false) : trimR s ≠ [] := by
  intro hnil
  rw [trimR_eq, List.rdropWhile_eq_nil_iff] at hnil
  rcases s with _ | ⟨a, rest⟩
  · cases hc
  · rw [List.head?_cons, Option.some.injEq] at hc
    subst hc
    rw [hnil a (List.mem_cons_self _ _)] at h
    exact Bool.noConfusion h

theorem trimR_append (A Y : Str) (h : trimR Y ≠ []) :
    trimR (A ++ Y) = A ++ trimR Y := by
  have hsplit := rdrop_rtake isWS Y
  rw [← trimR_eq] at hsplit
  have hstep1 : trimR (A ++ Y) = trimR (A ++ trimR Y) := by
    rw [trimR_eq, trimR_eq]
    rw [show A ++ Y = (A ++ trimR Y) ++ List.rtakeWhile isWS Y from by
      rw [List.append_assoc, hsplit]]
    rw [rdropWhile_append_ws isWS _ (fun c hc => List.mem_rtakeWhile_imp hc) _]
  have hstep2 : trimR (A ++ trimR Y) = A ++ trimR Y := by
    refine (trimR_eq_self_iff _).mpr ?_
    intro c hc
    rw [List.getLast?_append_of_ne_nil _ h] at hc
    exact trimR_getLast Y c hc
  rw [hstep1, hstep2]

theorem trim_trimR_head (s : Str) (h : ∀ c, s.head? = some c → isWS c = false) :
    trim (trimR s) = trim s := by
  rcases s with _ | ⟨a, rest⟩
  · rfl
  · have ha : isWS a = false := h a rfl
    have hL1 : trimL (a :: rest) = a :: rest := by
      rw [trimL, List.dropWhile_cons, if_neg (by rw [ha]; simp)]
    have hne : trimR (a :: rest) ≠ [] := trimR_ne_nil_of_head _ a rfl ha
    have hpfx : (trimR (a :: rest)) <+: (a :: rest) := by
      rw [trimR_eq]
      exact List.rdropWhile_prefix _ _
    have hL2 : trimL (trimR (a :: rest)) = trimR (a :: rest) := by
      rcases htr : trimR (a :: rest) with _ | ⟨b, rest2⟩
      · rfl
      · have hb : b = a := by
          rcases hpfx with ⟨q, hq⟩
          rw [htr] at hq
          rw [List.cons_append, List.cons.injEq] at hq
          exact hq.1
        rw [trimL, List.dropWhile_cons, if_neg (by rw [hb, ha]; simp)]
    rw [trim, hL2, trim, hL1]
    rw [trimR_eq, trimR_eq, List.rdropWhile_idempotent]

theorem dbStep_trim_congr (st : DBState) (l1 l2 : Str) (h : trim l1 = trim l2) :
    dbStep st l1 = dbStep st l2 := by
  simp only [dbStep]
  rw [h]

theorem removeCR_id (s : Str) (h : '\r' ∉ s) : removeCR s = s := by
  rw [removeCR]
  refine List.filter_eq_self.mpr ?_
  intro c hc
  simp only [decide_eq_true_eq]
  intro he
  exact h (he ▸ hc)

theorem chain'_of_ne_nil (L : List Str) (h : ∀ l ∈ L, l ≠ []) :
    List.Chain' (fun a b => a ≠ [] ∨ b ≠ []) L := by
  induction L with
  | nil => exact List.chain'_nil
  | cons a R ih =>
    rw [List.chain'_cons']
    refine ⟨?_, ih (fun l hl => h l (List.mem_cons_of_mem a hl))⟩
    intro y hy
    exact Or.inl (h a (List.mem_cons_self _ _))

theorem blockLines_facts (b : DocumentBlock) (hW : blockW b) :
    blockLines b ≠ [] ∧ ∀ l ∈ blockLines b, l ≠ [] ∧
      (∀ c, l.head? = some c → isWS c = false) ∧ '\n' ∉ l ∧ '\r' ∉ l := by
  cases b with
  | heading n t =>
    obtain ⟨h1, h2, h3, h4, h5, h6⟩ := hW
    refine ⟨by simp [blockLines], ?_⟩
    intro l hl
    rw [show blockLines (.heading n t) = [List.replicate n '#' ++ ' ' :: t] from rfl,
      List.mem_singleton] at hl
    subst hl
    refine ⟨by simp, ?_, ?_, ?_⟩
    · intro c hc
      rcases n with _ | m
      · omega
      · rw [List.replicate_succ, List.cons_append, List.head?_cons,
          Option.some.injEq] at hc
        rw [← hc]
        decide
    · intro hm
      rcases List.mem_append.mp hm with hm1 | hm1
      · cases (List.mem_replicate.mp hm1).2
      · rcases List.mem_cons.mp hm1 with hm2 | hm2
        · cases hm2
        · exact h5 hm2
    · intro hm
      rcases List.mem_append.mp hm with hm1 | hm1
      · cases (List.mem_replicate.mp hm1).2
      · rcases List.mem_cons.mp hm1 with hm2 | hm2
        · cases hm2
        · exact h6 hm2
  | paragraph o t =>
    cases o with
    | none =>
      obtain ⟨h3, h4, h5, h6⟩ := hW
      refine ⟨by simp [blockLines], ?_⟩
      intro l hl
      rw [show blockLines (.paragraph none t) = [t] from rfl, List.mem_singleton] at hl
      subst hl
      refine ⟨h3, ?_, h5, h6⟩
      intro c hc
      have := (trim_fixed_split h4).1
      rw [trimL_eq_self_iff] at this
      exact this c hc
    | some lab =>
      obtain ⟨h5, h6, h7, h8⟩ := hW
      refine ⟨by simp [blockLines], ?_⟩
      intro l hl
      rw [show blockLines (.paragraph (some lab) t) =
        ['*' :: '*' :: (lab ++ str ":** " ++ t)] from rfl, List.mem_singleton] at hl
      subst hl
      refine ⟨by simp, ?_, ?_, ?_⟩
      · intro c hc
        rw [List.head?_cons, Option.some.injEq] at hc
        rw [← hc]
        decide
      · intro hm
        rcases List.mem_cons.mp hm with hm1 | hm1
        · cases hm1
        rcases List.mem_cons.mp hm1 with hm2 | hm2
        · cases hm2
        rcases List.mem_append.mp hm2 with hm3 | hm3
        · rcases List.mem_append.mp hm3 with hm4 | hm4
          · exact h5 hm4
          · exact absurd hm4 (by decide)
        · exact h7 hm3
      · intro hm
        rcases List.mem_cons.mp hm with hm1 | hm1
        · cases hm1
        rcases List.mem_cons.mp hm1 with hm2 | hm2
        · cases hm2
        rcases List.mem_append.mp hm2 with hm3 | hm3
        · rcases List.mem_append.mp hm3 with hm4 | hm4
          · exact h6 hm4
          · exact absurd hm4 (by decide)
        · exact h8 hm3
  | ulist items =>
    obtain ⟨h1, h2⟩ := hW
    refine ⟨?_, ?_⟩
    · rw [show blockLines (.ulist items) = items.map (fun i => '-' :: ' ' :: i) from rfl]
      intro hc
      exact h1 (List.map_eq_nil_iff.mp hc)
    · intro l hl
      rw [show blockLines (.ulist items) = items.map (fun i => '-' :: ' ' :: i) from rfl,
        List.mem_map] at hl
      rcases hl with ⟨i, hi, hli⟩
      subst hli
      have hiW := h2 i hi
      refine ⟨by simp, ?_, ?_, ?_⟩
      · intro c hc
        rw [List.head?_cons, Option.some.injEq] at hc
        rw [← hc]
        decide
      · intro hm
        rcases List.mem_cons.mp hm with hm1 | hm1
        · cases hm1
        rcases List.mem_cons.mp hm1 with hm2 | hm2
        · cases hm2
        · exact hiW.2.2.1 hm2
      · intro hm
        rcases List.mem_cons.mp hm with hm1 | hm1
        · cases hm1
        rcases List.mem_cons.mp hm1 with hm2 | hm2
        · cases hm2
        · exact hiW.2.2.2 hm2
  | olist items =>
    obtain ⟨h1, h2⟩ := hW
    refine ⟨?_, ?_⟩
    · rw [show blockLines (.olist items) =
        items.mapIdx (fun idx i => natStr (idx + 1) ++ '.' :: ' ' :: i) from rfl]
      intro hc
      have := congrArg List.length hc
      rw [List.length_mapIdx, List.length_nil] at this
      exact h1 (List.length_eq_zero.mp this)
    · intro l hl
      rw [show blockLines (.olist items) =
        items.mapIdx (fun idx i => natStr (idx + 1) ++ '.' :: ' ' :: i) from rfl] at hl
      rw [List.mem_iff_getElem] at hl
      rcases hl with ⟨k, hk, hlk⟩
      rw [List.getElem_mapIdx] at hlk
      rw [List.length_mapIdx] at hk
      have hiW := h2 items[k] (List.getElem_mem hk)
      have hD := natStr_digits (k + 1)
      subst hlk
      refine ⟨?_, ?_, ?_, ?_⟩
      · intro hc
        rcases List.append_eq_nil.mp hc with ⟨-, h9⟩
        cases h9
      · intro c hc
        rcases hd : natStr (k + 1) with _ | ⟨d, ds⟩
        · exact absurd hd hD.1
        · rw [hd, List.cons_append, List.head?_cons, Option.some.injEq] at hc
          rw [← hc]
          exact isDigit_not_ws d (hD.2 d (by rw [hd]; exact List.mem_cons_self _ _))
      · intro hm
        rcases List.mem_append.mp hm with hm1 | hm1
        · exact digit_ne_nl '\n' (hD.2 '\n' hm1) rfl
        · rcases List.mem_cons.mp hm1 with hm2 | hm2
          · cases hm2
          rcases List.mem_cons.mp hm2 with hm3 | hm3
          · cases hm3
          · exact hiW.2.2.1 hm3
      · intro hm
        rcases List.mem_append.mp hm with hm1 | hm1
        · have := hD.2 '\r' hm1
          exact absurd this (by decide)
        · rcases List.mem_cons.mp hm1 with hm2 | hm2
          · cases hm2
          rcases List.mem_cons.mp hm2 with hm3 | hm3
          · cases hm3
          · exact hiW.2.2.2 hm3

theorem hlBlocks_append (X Y : List DocumentBlock) :
    hlBlocks (X ++ Y) = hlBlocks X ++ hlBlocks Y := by
  simp [hlBlocks]

theorem blocks_fold (B : List DocumentBlock) :
    ∀ bs : List DocumentBlock, (∀ b ∈ B, blockW b) → (∀ b ∈ B, plainParaSafe b) →
      ∃ C, List.foldl dbStep ⟨bs, [], none⟩
          ((B.map (fun b => blockLines b ++ [[]])).flatten) = ⟨bs ++ C, [], none⟩ ∧
        hlBlocks C = hlBlocks B := by
  induction B with
  | nil =>
    intro bs _ _
    exact ⟨[], by simp, rfl⟩
  | cons b R ih =>
    intro bs hW hS
    rw [List.map_cons, List.flatten_cons, List.foldl_append]
    rcases block_fold b bs (hW b (List.mem_cons_self _ _)) (hS b (List.mem_cons_self _ _))
      with ⟨C1, h1, h2⟩
    rw [h1]
    rcases ih (bs ++ C1) (fun x hx => hW x (List.mem_cons_of_mem _ hx))
      (fun x hx => hS x (List.mem_cons_of_mem _ hx)) with ⟨C2, h3, h4⟩
    rw [h3]
    refine ⟨C1 ++ C2, by rw [List.append_assoc], ?_⟩
    rw [hlBlocks_append, h2, h4, ← hlBlocks_append, List.singleton_append]

theorem flatten_lines_mem (B : List DocumentBlock) (hW : ∀ b ∈ B, blockW b) :
    ∀ l ∈ (B.map (fun b => blockLines b ++ [[]])).flatten, '\n' ∉ l ∧ '\r' ∉ l := by
  intro l hl
  rw [List.mem_flatten] at hl
  rcases hl with ⟨piece, hp, hlp⟩
  rw [List.mem_map] at hp
  rcases hp with ⟨b, hb, hpb⟩
  subst hpb
  rcases List.mem_append.mp hlp with h1 | h1
  · have := (blockLines_facts b (hW b hb)).2 l h1
    exact ⟨this.2.2.1, this.2.2.2⟩
  · rw [List.mem_singleton.mp h1]
    exact ⟨by simp, by simp⟩

theorem flatten_head_ne_nil (B : List DocumentBlock) (hW : ∀ b ∈ B, blockW b) :
    ∀ y, ((B.map (fun b => blockLines b ++ [[]])).flatten).head? = some y → y ≠ [] := by
  cases B with
  | nil => intro y hy; cases hy
  | cons b R =>
    intro y hy
    rw [List.map_cons, List.flatten_cons] at hy
    have hbf := blockLines_facts b (hW b (List.mem_cons_self _ _))
    rcases hbl : blockLines b with _ | ⟨l0, ls⟩
    · exact absurd hbl hbf.1
    · rw [hbl, List.cons_append, List.cons_append, List.head?_cons,
        Option.some.injEq] at hy
      subst hy
      exact (hbf.2 l0 (by rw [hbl]; exact List.mem_cons_self _ _)).1

theorem flatten_lines_chain (B : List DocumentBlock) (hW : ∀ b ∈ B, blockW b) :
    List.Chain' (fun a b => a ≠ [] ∨ b ≠ [])
      ((B.map (fun b => blockLines b ++ [[]])).flatten) := by
  induction B with
  | nil => exact List.chain'_nil
  | cons b R ih =>
    rw [List.map_cons, List.flatten_cons]
    have hbf := blockLines_facts b (hW b (List.mem_cons_self _ _))
    rw [List.chain'_append]
    refine ⟨?_, ih (fun x hx => hW x (List.mem_cons_of_mem _ hx)), ?_⟩
    · rw [List.chain'_append]
      refine ⟨chain'_of_ne_nil _ (fun l hl => (hbf.2 l hl).1),
        List.chain'_singleton _, ?_⟩
      intro x hx y hy
      rcases List.mem_getLast?_eq_getLast hx with ⟨hne2, hxe⟩
      exact Or.inl ((hbf.2 x (by rw [hxe]; exact List.getLast_mem hne2)).1)
    · intro x hx y hy
      exact Or.inr (flatten_head_ne_nil R
        (fun x2 hx2 => hW x2 (List.mem_cons_of_mem _ hx2)) y (Option.mem_def.mp hy))

theorem flatten_lines_head (B : List DocumentBlock) (hW : ∀ b ∈ B, blockW b)
    (hne : B ≠ []) : ∃ (y : Char) (ys : Str) (Lt : List Str),
      (B.map (fun b => blockLines b ++ [[]])).flatten = (y :: ys) :: Lt ∧
        isWS y = false := by
  cases B with
  | nil => cases hne rfl
  | cons b R =>
    have hbf := blockLines_facts b (hW b (List.mem_cons_self _ _))
    rcases hbl : blockLines b with _ | ⟨l0, ls⟩
    · exact absurd hbl hbf.1
    · have hl0 := hbf.2 l0 (by rw [hbl]; exact List.mem_cons_self _ _)
      rcases hl00 : l0 with _ | ⟨y, ys⟩
      · exact absurd hl00 hl0.1
      · refine ⟨y, ys, (ls ++ [[]]) ++ (R.map (fun b => blockLines b ++ [[]])).flatten,
          ?_, ?_⟩
        · rw [List.map_cons, List.flatten_cons, hbl, hl00]
          rw [List.cons_append, List.cons_append]
        · exact hl0.2.1 y (by rw [hl00]; rfl)

theorem dbm_reparse (B : List DocumentBlock) (hW : ∀ b ∈ B, blockW b)
    (hS : ∀ b ∈ B, plainParaSafe b) :
    hlBlocks (createDocumentBlocks (documentBlocksToMarkdown B)) = hlBlocks B := by
  rcases List.eq_nil_or_concat B with hB | ⟨B0, bl, hB⟩
  · subst hB
    decide
  · rw [List.concat_eq_append] at hB
    subst hB
    have hWbl := hW bl (by simp)
    have hbf := blockLines_facts bl hWbl
    rcases List.eq_nil_or_concat (blockLines bl) with hbl | ⟨ls, ml, hbl⟩
    · exact absurd hbl hbf.1
    rw [List.concat_eq_append] at hbl
    have hml_mem : ml ∈ blockLines bl := by rw [hbl]; simp
    have hml := hbf.2 ml hml_mem
    rcases hml0 : ml with _ | ⟨y2, ys2⟩
    · exact absurd hml0 hml.1
    have hy2 : isWS y2 = false := hml.2.1 y2 (by rw [hml0]; rfl)
    have hmlR : trimR ml ≠ [] := trimR_ne_nil_of_head ml y2 (by rw [hml0]; rfl) hy2
    have hLsplit : ((B0 ++ [bl]).map (fun b => blockLines b ++ [[]])).flatten
        = (((B0.map (fun b => blockLines b ++ [[]])).flatten ++ ls) ++ [ml]) ++ [[]] := by
      rw [List.map_append, List.flatten_append]
      rw [show ([bl].map (fun b => blockLines b ++ [[]])).flatten
          = blockLines bl ++ [[]] from by simp]
      rw [hbl]
      simp [List.append_assoc]
    have hmem := flatten_lines_mem (B0 ++ [bl]) hW
    have hMmem : ∀ p ∈ ((B0.map (fun b => blockLines b ++ [[]])).flatten ++ ls)
        ++ [trimR ml], '\n' ∉ p ∧ '\r' ∉ p := by
      intro p hp
      rcases List.mem_append.mp hp with h1 | h1
      · refine hmem p ?_
        rw [hLsplit]
        exact List.mem_append.mpr (Or.inl (List.mem_append.mpr (Or.inl h1)))
      · rw [List.mem_singleton.mp h1]
        have hsub : (trimR ml).Sublist ml := by
          rw [trimR_eq]
          exact (List.rdropWhile_prefix _ _).sublist
        exact ⟨fun hm => hml.2.2.1 (hsub.mem hm), fun hm => hml.2.2.2 (hsub.mem hm)⟩
    have hJ0 : List.intercalate ['\n']
        ((((B0.map (fun b => blockLines b ++ [[]])).flatten ++ ls) ++ [ml]) ++ [[]])
        = List.intercalate ['\n']
            (((B0.map (fun b => blockLines b ++ [[]])).flatten ++ ls) ++ [ml])
          ++ ['\n'] := by
      rw [intercalate_concat _ _ _ (by simp)]
      simp
    have htriple : hasTriple (List.intercalate ['\n']
        (((B0 ++ [bl]).map (fun b => blockLines b ++ [[]])).flatten)) = false :=
      hasTriple_intercalate _ (fun l hl => (hmem l hl).1) (flatten_lines_chain _ hW)
    rcases flatten_lines_head (B0 ++ [bl]) hW (by simp) with ⟨y, ys, Lt, hLhead, hy⟩
    have htrimL : trimL (List.intercalate ['\n']
        (((B0 ++ [bl]).map (fun b => blockLines b ++ [[]])).flatten))
        = List.intercalate ['\n']
            (((B0 ++ [bl]).map (fun b => blockLines b ++ [[]])).flatten) := by
      rw [trimL_eq_self_iff]
      intro c hc
      rw [hLhead] at hc
      rcases intercalate_head_cons ['\n'] y ys Lt with ⟨zs, hz⟩
      rw [hz, List.head?_cons, Option.some.injEq] at hc
      rw [← hc]
      exact hy
    have htrimR : trimR (List.intercalate ['\n']
        (((B0.map (fun b => blockLines b ++ [[]])).flatten ++ ls) ++ [ml]))
        = List.intercalate ['\n']
            (((B0.map (fun b => blockLines b ++ [[]])).flatten ++ ls) ++ [trimR ml]) := by
      rcases hM0 : (B0.map (fun b => blockLines b ++ [[]])).flatten ++ ls
        with _ | ⟨m0, M0r⟩
      · rw [show List.intercalate ['\n'] ([] ++ [ml] : List Str) = ml from by
          simp [List.intercalate, List.intersperse]]
        rw [show List.intercalate ['\n'] ([] ++ [trimR ml] : List Str) = trimR ml from by
          simp [List.intercalate, List.intersperse]]
      · rw [intercalate_concat ['\n'] ml _ (by simp)]
        rw [intercalate_concat ['\n'] (trimR ml) _ (by simp)]
        rw [trimR_append _ ml hmlR]
    show hlBlocks (createDocumentBlocks (trim (collapseNewlines (List.intercalate ['\n']
      (((B0 ++ [bl]).map (fun b => blockLines b ++ [[]])).flatten))))) = _
    rw [collapseNewlines_id _ htriple]
    rw [show ∀ s : Str, trim s = trimR (trimL s) from fun s => rfl]
    rw [htrimL]
    rw [hLsplit, hJ0]
    rw [trimR_eq, List.rdropWhile_concat_pos _ _ '\n' (by decide), ← trimR_eq]
    rw [htrimR]
    show hlBlocks ((flushL (flushP (List.foldl dbStep ⟨[], [], none⟩
      (splitOn1 '\n' (removeCR (List.intercalate ['\n']
        (((B0.map (fun b => blockLines b ++ [[]])).flatten ++ ls)
          ++ [trimR ml]))))))).blocks) = _
    rw [removeCR_id _ (not_mem_intercalate _ _ (by decide) (fun p hp => (hMmem p hp).2))]
    rw [splitOn1_intercalate '\n' _ (by simp) (fun p hp => (hMmem p hp).1)]
    rw [List.foldl_append, List.foldl_cons, List.foldl_nil]
    rw [dbStep_trim_congr _ (trimR ml) ml (trim_trimR_head ml hml.2.1)]
    rcases blocks_fold (B0 ++ [bl]) [] hW hS with ⟨C, hC, hChl⟩
    rw [hLsplit] at hC
    rw [List.foldl_append, List.foldl_append, List.foldl_cons, List.foldl_nil,
      List.foldl_cons, List.foldl_nil] at hC
    rw [dbStep_blank _ [] rfl] at hC
    rw [hC]
    rw [show ((⟨[] ++ C, [], none⟩ : DBState)).blocks = C from by simp]
    exact hChl

/-- C6 (amended): re-parsing the Markdown rendering of
`createDocumentBlocks`'s output reproduces the same heading and list
blocks, provided no plain paragraph's joined text itself matches the
heading, bullet, or numbered-line patterns. -/
theorem createDocumentBlocks_roundtrip (input : Str)
    (hS : ∀ b ∈ createDocumentBlocks input, plainParaSafe b) :
    hlBlocks (createDocumentBlocks (documentBlocksToMarkdown
        (createDocumentBlocks input))) =
      hlBlocks (createDocumentBlocks input) :=
  dbm_reparse (createDocumentBlocks input) (cdb_W input) hS

/-- Witness for C6 on a concrete document with a heading, a paragraph,
a bullet list and a numbered list. -/
theorem createDocumentBlocks_roundtrip_witness :
    (∀ b ∈ createDocumentBlocks (str "# hi\n\nok\n\n- a\n- b\n\n1. x\n2. y"),
        plainParaSafe b) ∧
    hlBlocks (createDocumentBlocks (documentBlocksToMarkdown
        (createDocumentBlocks (str "# hi\n\nok\n\n- a\n- b\n\n1. x\n2. y")))) =
      hlBlocks (createDocumentBlocks (str "# hi\n\nok\n\n- a\n- b\n\n1. x\n2. y")) :=
  ⟨by decide, createDocumentBlocks_roundtrip _ (by decide)⟩
